import Mathlib

/-!
Shallow embedding of the snake-agent repository (three Python files:
`snakeGameAStar.py`, `snakeGameHeuristic.py`, `snakeGameHybrid.py`).

Cells are integer pairs; the snake is a list of cells with the head first;
barriers are a finite collection of cells (modelled as a list, used only
through membership).  Python's unbounded `while` loops (the A* frontier
loop and the flood-fill queue loop) are embedded with an explicit fuel
argument so that the functions are executable by kernel reduction; the
fuel passed at the top level is proved sufficient, so the out-of-fuel
branch is unreachable (this is the termination content of the source
loops).  Randomness (`random.choice` fallbacks, `generateOrb`'s rejection
sampler) is modelled by explicit parameters: a fallback direction for the
policies and a stream of candidate cells for orb generation.
-/

abbrev Cell := Int × Int

/-- Manhattan distance between two cells (`manhattanDistance` in all three files). -/
def manhattan (a b : Cell) : Nat := (a.1 - b.1).natAbs + (a.2 - b.2).natAbs

/-- The four move directions (the keys of the `moves` dict, in insertion order). -/
inductive Direction where
  | UP | DOWN | LEFT | RIGHT
deriving DecidableEq, Repr

/-- Unit offset of a direction, as in the `moves` dict of each file:
UP=(0,-1), DOWN=(0,1), LEFT=(-1,0), RIGHT=(1,0). -/
def offOf : Direction → Cell
  | .UP => (0, -1)
  | .DOWN => (0, 1)
  | .LEFT => (-1, 0)
  | .RIGHT => (1, 0)

/-- The directions in the iteration order of the Python `moves` dict. -/
def dirList : List Direction := [.UP, .DOWN, .LEFT, .RIGHT]

/-- Cell reached by moving one step in the given direction. -/
def stepCell (c : Cell) (d : Direction) : Cell := (c.1 + (offOf d).1, c.2 + (offOf d).2)

/-- Bounds check `0 <= x < gridSize[0] and 0 <= y < gridSize[1]`. -/
def inBoundsB (W H : Nat) (c : Cell) : Bool :=
  decide (0 ≤ c.1 ∧ c.1 < (W : Int) ∧ 0 ≤ c.2 ∧ c.2 < (H : Int))

/-- Validity predicate of `snakeGameAStar.py` (`isValid`, lines 18-21):
in bounds, not in the snake (full body, tail included), not a barrier. -/
def isValidA (W H : Nat) (snake barriers : List Cell) (c : Cell) : Bool :=
  inBoundsB W H c && !(snake.contains c) && !(barriers.contains c)

/-- Validity predicate of `snakeGameHeuristic.py` (`isValid`, lines 18-21):
in bounds, not in `snake[:-1]` (body with the tail cell excluded), not a barrier. -/
def isValidHeu (W H : Nat) (snake barriers : List Cell) (c : Cell) : Bool :=
  inBoundsB W H c && !(snake.dropLast.contains c) && !(barriers.contains c)

/-- Validity predicate of `snakeGameHybrid.py` (`isValid`, lines 19-22); its body is
the same as the heuristic file's predicate (tail cell excluded). -/
def isValidHyb (W H : Nat) (snake barriers : List Cell) (c : Cell) : Bool :=
  inBoundsB W H c && !(snake.dropLast.contains c) && !(barriers.contains c)

/-- All in-bounds cells of a `W × H` grid, as a list. -/
def allCells (W H : Nat) : List Cell :=
  (List.range W).flatMap (fun x => (List.range H).map (fun y => (Int.ofNat x, Int.ofNat y)))

/-! ### Python `min`/`max` with a key function

`min(l, key=k)` keeps the current best and replaces it only on a strictly
smaller key, so it returns the first element with minimal key; `max`
replaces only on a strictly larger key, returning the first element with
maximal key.  `lt` is the strict comparison used on keys. -/

/-- Python `min(l, key=k)` for a strict comparison `lt` on keys. -/
def pyMin {α κ : Type} (lt : κ → κ → Bool) (k : α → κ) : List α → Option α
  | [] => none
  | x :: xs => some (xs.foldl (fun acc y => if lt (k y) (k acc) then y else acc) x)

/-- Python `max(l, key=k)` for a strict comparison `lt` on keys. -/
def pyMax {α κ : Type} (lt : κ → κ → Bool) (k : α → κ) : List α → Option α
  | [] => none
  | x :: xs => some (xs.foldl (fun acc y => if lt (k acc) (k y) then y else acc) x)

/-- Strict lexicographic comparison on triples, as Python compares the
key tuples `(x[2], x[3], -x[1])` of `hybridPolicy`. -/
def lex3Lt (a b : Nat × Nat × Int) : Bool :=
  a.1 < b.1 || (a.1 = b.1 && (a.2.1 < b.2.1 || (a.2.1 = b.2.1 && a.2.2 < b.2.2)))

/-! ### GreedyPolicy (`heuristicPolicy`, `snakeGameHeuristic.py` lines 5-50) -/

/-- The `validMoves` list built by `heuristicPolicy`: for each direction in
dict order whose resulting head is valid, the pair
`(direction, manhattanDistance(newHead, orb))`. -/
def heuristicMoves (snake : List Cell) (orb : Cell) (W H : Nat) (barriers : List Cell) :
    List (Direction × Nat) :=
  let hd := snake.headD (0, 0)
  dirList.foldr
    (fun dr acc =>
      let nh := stepCell hd dr
      if isValidHeu W H snake barriers nh then (dr, manhattan nh orb) :: acc else acc)
    []

/-- `heuristicPolicy`: choose the valid move of minimal distance to the orb
(Python `min` by `x[1]`, i.e. first minimum); if no move is valid, fall back to a
random direction, modelled by the extra parameter `rnd`. -/
def heuristicPolicy (rnd : Direction) (snake : List Cell) (orb : Cell) (W H : Nat)
    (barriers : List Cell) : Direction :=
  match pyMin (fun a b => a < b) (fun p => p.2) (heuristicMoves snake orb W H barriers) with
  | some p => p.1
  | none => rnd

/-! ### Flood fill (`floodFillArea` inside `hybridPolicy`, `snakeGameHybrid.py` lines 28-45) -/

/-- The four neighbour cells in the offset order `[(0,-1),(0,1),(-1,0),(1,0)]`
of the flood-fill loop. -/
def nbrCells (c : Cell) : List Cell :=
  [(c.1, c.2 - 1), (c.1, c.2 + 1), (c.1 - 1, c.2), (c.1 + 1, c.2)]

/-- Inner loop of the flood fill: process the neighbour candidates in order;
each in-bounds candidate not yet visited is added to the visited set and to the
queue.  Returns the new visited list and the cells enqueued, in order. -/
def processNbrs (W H : Nat) : List Cell → List Cell → (List Cell × List Cell)
  | [], vis => (vis, [])
  | c :: cs, vis =>
    if inBoundsB W H c && !(vis.contains c) then
      let p := processNbrs W H cs (c :: vis)
      (p.1, c :: p.2)
    else
      processNbrs W H cs vis

/-- Outer loop of the flood fill, with fuel: pop the queue head, count it,
enqueue its fresh in-bounds neighbours.  `none` means the fuel ran out
(proved unreachable for the fuel used by `floodFillArea`). -/
def floodLoopF (W H : Nat) : Nat → List Cell → List Cell → Option Nat
  | _, [], _ => some 0
  | 0, _ :: _, _ => none
  | fuel + 1, q :: rest, vis =>
    let p := processNbrs W H (nbrCells q) vis
    (floodLoopF W H fuel (rest ++ p.2) p.1).map (· + 1)

/-- Fuel that suffices for the flood fill: one step per queue entry plus one
per never-yet-visited in-bounds cell. -/
def floodFuel (W H : Nat) (queue vis : List Cell) : Nat :=
  queue.length + ((allCells W H).filter (fun c => !(vis.contains c))).length

/-- `floodFillArea(start)`: breadth-first flood fill counting the cells
reachable from `start`; the visited set is pre-seeded with
`set(snake[:-1]) | barriers` plus `start` itself. -/
def floodFillArea (start : Cell) (snake barriers : List Cell) (W H : Nat) : Nat :=
  let vis0 := start :: (snake.dropLast ++ barriers)
  (floodLoopF W H (floodFuel W H [start] vis0) [start] vis0).getD 0

/-! ### HybridPolicy (`hybridPolicy`, `snakeGameHybrid.py` lines 6-75) -/

/-- Tail-distance score of `hybridPolicy`: `manhattan(newHead, tail)` when the
snake has a tail distinct from its head (`len(snake) > 1`), else `0`. -/
def tailDistOf (snake : List Cell) (nh : Cell) : Nat :=
  if 1 < snake.length then manhattan nh (snake.getLastD (0, 0)) else 0

/-- The `validMoves` list built by `hybridPolicy`: for each direction in dict
order whose resulting head is valid, the tuple
`(direction, proximityScore, areaScore, tailDistance)`. -/
def hybridMoves (snake : List Cell) (orb : Cell) (W H : Nat) (barriers : List Cell) :
    List (Direction × Nat × Nat × Nat) :=
  let hd := snake.headD (0, 0)
  dirList.foldr
    (fun dr acc =>
      let nh := stepCell hd dr
      if isValidHyb W H snake barriers nh then
        (dr, manhattan nh orb, floodFillArea nh snake barriers W H, tailDistOf snake nh) :: acc
      else acc)
    []

/-- Key tuple `(x[2], x[3], -x[1])` used by `hybridPolicy`'s `max`. -/
def hybridKey (p : Direction × Nat × Nat × Nat) : Nat × Nat × Int :=
  (p.2.2.1, p.2.2.2, -(p.2.1 : Int))

/-- `hybridPolicy`: choose the valid move maximizing the lexicographic tuple
`(areaScore, tailDistance, -proximityScore)` (Python `max`, i.e. first maximum);
fall back to `rnd` when no move is valid. -/
def hybridPolicy (rnd : Direction) (snake : List Cell) (orb : Cell) (W H : Nat)
    (barriers : List Cell) : Direction :=
  match pyMax lex3Lt hybridKey (hybridMoves snake orb W H barriers) with
  | some p => p.1
  | none => rnd

/-! ### PathSearchPolicy (`aStarPolicy`, `snakeGameAStar.py` lines 5-58) -/

/-- Frontier entry of the A* loop: the Python tuple
`(estimatedTotalCost, stepsSoFar, cell, pathSoFar)`. -/
structure Ent where
  f : Nat
  g : Nat
  cell : Cell
  path : List Direction

/-- Insert an entry into a list sorted by `f`, before the first entry of
larger-or-equal `f` (stable insertion). -/
def insF (e : Ent) : List Ent → List Ent
  | [] => [e]
  | x :: xs => if e.f ≤ x.f then e :: x :: xs else x :: insF e xs

/-- Stable sort by `f`, matching Python's stable `openSet.sort(key=lambda x: x[0])`. -/
def sortF : List Ent → List Ent
  | [] => []
  | x :: xs => insF x (sortF xs)

/-- Successor entries pushed when expanding `e`: for each direction in dict
order, if the neighbour is valid and unvisited, the entry
`(gScore + 1 + manhattan(neighbor, orb), gScore + 1, neighbor, path + [direction])`. -/
def pushNbrs (W H : Nat) (snake barriers : List Cell) (orb : Cell) (e : Ent)
    (visited : List Cell) : List Ent :=
  dirList.foldr
    (fun dr acc =>
      let nbr := stepCell e.cell dr
      if isValidA W H snake barriers nbr && !(visited.contains nbr) then
        ⟨e.g + 1 + manhattan nbr orb, e.g + 1, nbr, e.path ++ [dr]⟩ :: acc
      else acc)
    []

/-- The A* frontier loop with fuel.  Each iteration sorts the frontier by
estimated total cost, pops the head, returns its path if it is the orb,
skips it if already visited, and otherwise expands it.  `some (some p)` is
success with path `p`, `some none` is frontier exhaustion (the random
fallback of line 58), `none` is fuel exhaustion (proved unreachable). -/
def aStarLoopF (W H : Nat) (snake barriers : List Cell) (orb : Cell) :
    Nat → List Ent → List Cell → Option (Option (List Direction))
  | _, [], _ => some none
  | 0, _ :: _, _ => none
  | fuel + 1, x :: xs, visited =>
    match sortF (x :: xs) with
    | [] => some none
    | e :: rest =>
      if e.cell = orb then some (some e.path)
      else if visited.contains e.cell then aStarLoopF W H snake barriers orb fuel rest visited
      else
        aStarLoopF W H snake barriers orb fuel
          (rest ++ pushNbrs W H snake barriers orb e (e.cell :: visited))
          (e.cell :: visited)

/-- Universe of cells the A* loop can ever visit: the start cell and every
in-bounds cell. -/
def aStarUniv (W H : Nat) (start : Cell) : List Cell := start :: allCells W H

/-- Fuel that suffices for the A* loop: the frontier length plus five steps
per not-yet-visited universe cell. -/
def aStarFuel (W H : Nat) (start : Cell) (openSet : List Ent) (visited : List Cell) : Nat :=
  openSet.length + 5 * ((aStarUniv W H start).filter (fun c => !(visited.contains c))).length

/-- The A* search from the snake's head: initial frontier
`[(manhattan(head, orb), 0, head, [])]`, empty visited set. -/
def aStarSearch (snake : List Cell) (orb : Cell) (W H : Nat) (barriers : List Cell) :
    Option (Option (List Direction)) :=
  let start := snake.headD (0, 0)
  aStarLoopF W H snake barriers orb
    (aStarFuel W H start [⟨manhattan start orb, 0, start, []⟩] [])
    [⟨manhattan start orb, 0, start, []⟩] []

/-- `aStarPolicy`: first direction of the found path (`'UP'` for an empty
path, line 44); a random direction, modelled by `rnd`, when the frontier
empties without reaching the orb (line 58). -/
def aStarPolicy (rnd : Direction) (snake : List Cell) (orb : Cell) (W H : Nat)
    (barriers : List Cell) : Direction :=
  match aStarSearch snake orb W H barriers with
  | some (some p) => p.headD .UP
  | _ => rnd

/-! ### EpisodeSimulator (`gameLoop`/`resetGame`/`generateOrb`, identical in all
three files up to the policy invoked; line numbers below refer to
`snakeGameAStar.py`) -/

/-- Game state owned by the tick callback: snake body, orb, barriers, score and
high score (the elapsed-time clock belongs to the excluded display layer). -/
structure GameState where
  snake : List Cell
  orb : Cell
  barriers : List Cell
  score : Int
  highscore : Int
deriving DecidableEq, Repr

/-- `generateOrb` (lines 86-91): rejection-sample a cell not in the snake and
not a barrier.  The random draws are modelled by the candidate list `cands`;
`none` means the modelled draw stream was exhausted. -/
def generateOrb (cands : List Cell) (snake barriers : List Cell) : Option Cell :=
  cands.find? (fun c => !(snake.contains c) && !(barriers.contains c))

/-- One tick of `gameLoop` (lines 176-218) for an already-chosen direction
`dir`: compute `newHead`, deduct the movement cost, terminate on collision
with the snake or a barrier (updating the high score), otherwise shift the
body, and on orb collection grow by duplicating the tail, regenerate the orb
and add 100 to the score.  Returns the new state and a game-over flag;
`none` only when orb regeneration exhausts its modelled draw stream. -/
def gameTick (dir : Direction) (orbCands : List Cell) (gs : GameState) :
    Option (GameState × Bool) :=
  let nh := stepCell (gs.snake.headD (0, 0)) dir
  let sc := gs.score - 1
  if gs.snake.contains nh || gs.barriers.contains nh then
    some ({ gs with score := sc, highscore := max gs.highscore sc }, true)
  else
    let s1 := nh :: gs.snake.dropLast
    if nh = gs.orb then
      let s2 := s1 ++ [s1.getLastD (0, 0)]
      match generateOrb orbCands s2 gs.barriers with
      | some o2 =>
        some ({ snake := s2, orb := o2, barriers := gs.barriers, score := sc + 100,
                highscore := gs.highscore }, false)
      | none => none
    else
      some ({ gs with snake := s1, score := sc }, false)

/-- `resetGame` (lines 163-170): restore the fixed 3-cell snake, regenerate
barriers (random, modelled by the parameter `newBarriers`) and the orb,
zero the score; the high score is left untouched. -/
def resetGame (newBarriers orbCands : List Cell) (gs : GameState) : Option GameState :=
  match generateOrb orbCands [(5, 5), (5, 6), (5, 7)] newBarriers with
  | some orb =>
    some { snake := [(5, 5), (5, 6), (5, 7)], orb := orb, barriers := newBarriers, score := 0,
           highscore := gs.highscore }
  | none => none

/-- Snake-body component of one `gameLoop` tick of `snakeGameAStar.py`
(lines 176-211): the chosen move is recomputed by `aStarPolicy`; on
collision the body is left unchanged (the tick only ends the episode),
otherwise it shifts, and grows by a duplicated tail cell when the new head
lands on the orb. -/
def nextSnakeA (rnd : Direction) (W H : Nat) (orb : Cell) (barriers : List Cell)
    (s : List Cell) : List Cell :=
  let dir := aStarPolicy rnd s orb W H barriers
  let nh := stepCell (s.headD (0, 0)) dir
  if s.contains nh || barriers.contains nh then s
  else
    let s1 := nh :: s.dropLast
    if nh = orb then s1 ++ [s1.getLastD (0, 0)] else s1

/-! ### Specification-side notions used to state the claims -/

/-- Cell reached from `c` by following a list of directions. -/
def applyPath (c : Cell) (p : List Direction) : Cell := p.foldl stepCell c

/-- A cell lies on some shortest (Manhattan-geodesic) path from `a` to `b`
exactly when it satisfies `manhattan a c + manhattan c b = manhattan a b`. -/
def Geo (a b c : Cell) : Prop := manhattan a c + manhattan c b = manhattan a b

/-- Soundness of an A* frontier entry with respect to the start cell and the
orb: the recorded path leads from the start to the entry's cell, `g` is the
path length, and `f = g + manhattan(cell, orb)`. -/
def SoundE (start orb : Cell) (e : Ent) : Prop :=
  applyPath start e.path = e.cell ∧ e.g = e.path.length ∧
    e.f = e.g + manhattan e.cell orb

/-- Loop invariant of the A* success proof: the frontier holds a sound entry
of minimal estimated cost `f = manhattan start orb` whose cell is unvisited
and strictly closer to the orb than every visited geodesic cell. -/
def AStarInv (start orb : Cell) (openSet : List Ent) (visited : List Cell) : Prop :=
  ∃ e ∈ openSet, SoundE start orb e ∧ e.f = manhattan start orb ∧ e.cell ∉ visited ∧
    ∀ v ∈ visited, Geo start orb v → manhattan e.cell orb < manhattan v orb

/-- Cells 4-directionally reachable from `start` through cells that are in
bounds, not in the snake body excluding the tail, and not barriers; the start
cell itself counts as reached. -/
inductive Reachable (start : Cell) (snake barriers : List Cell) (W H : Nat) : Cell → Prop where
  | start : Reachable start snake barriers W H start
  | step {c c' : Cell} : Reachable start snake barriers W H c → c' ∈ nbrCells c →
      inBoundsB W H c' = true → c' ∉ snake.dropLast → c' ∉ barriers →
      Reachable start snake barriers W H c'

/-- Generalisation of `Reachable` to an arbitrary flood-fill loop state:
cells reachable from some queue seed through in-bounds cells outside the
current visited list. -/
inductive FloodReach (W H : Nat) (queue vis : List Cell) : Cell → Prop where
  | seed {c : Cell} : c ∈ queue → FloodReach W H queue vis c
  | step {c c' : Cell} : FloodReach W H queue vis c → c' ∈ nbrCells c →
      inBoundsB W H c' = true → c' ∉ vis → FloodReach W H queue vis c'


/-! ## General helper lemmas -/

theorem foldr_if_eq_filter_map {α β : Type} (p : α → Bool) (f : α → β) (l : List α) :
    l.foldr (fun a acc => if p a then f a :: acc else acc) [] = (l.filter p).map f := by
  induction l with
  | nil => rfl
  | cons a l ih =>
    by_cases h : p a = true
    · simp [List.filter_cons, h, ih]
    · simp only [Bool.not_eq_true] at h
      simp [List.filter_cons, h, ih]

theorem mem_dirList (dr : Direction) : dr ∈ dirList := by
  cases dr <;> simp [dirList]

theorem contains_true_iff {α : Type} [BEq α] [LawfulBEq α] (l : List α) (a : α) :
    l.contains a = true ↔ a ∈ l := by
  simp

theorem contains_false_iff {α : Type} [BEq α] [LawfulBEq α] (l : List α) (a : α) :
    l.contains a = false ↔ a ∉ l := by
  simp

theorem manhattan_eq_zero (a b : Cell) : manhattan a b = 0 ↔ a = b := by
  obtain ⟨x, y⟩ := a
  obtain ⟨u, v⟩ := b
  simp only [manhattan, Prod.mk.injEq]
  omega

theorem manhattan_triangle (a b c : Cell) : manhattan a c ≤ manhattan a b + manhattan b c := by
  simp only [manhattan]
  omega

theorem manhattan_stepCell (c : Cell) (dr : Direction) : manhattan c (stepCell c dr) = 1 := by
  cases dr <;> simp [manhattan, stepCell, offOf]

theorem manhattan_comm (a b : Cell) : manhattan a b = manhattan b a := by
  simp only [manhattan]
  omega

/-! ## Equational description of `gameTick`'s three branches -/

theorem gameTick_eq_collision (dir : Direction) (orbCands : List Cell) (gs : GameState)
    (h : (gs.snake.contains (stepCell (gs.snake.headD (0, 0)) dir) ||
          gs.barriers.contains (stepCell (gs.snake.headD (0, 0)) dir)) = true) :
    gameTick dir orbCands gs =
      some ({ gs with score := gs.score - 1, highscore := max gs.highscore (gs.score - 1) },
        true) := by
  unfold gameTick
  dsimp only
  rw [h]
  simp

theorem gameTick_eq_grow (dir : Direction) (orbCands : List Cell) (gs : GameState)
    (h : (gs.snake.contains (stepCell (gs.snake.headD (0, 0)) dir) ||
          gs.barriers.contains (stepCell (gs.snake.headD (0, 0)) dir)) = false)
    (ho : stepCell (gs.snake.headD (0, 0)) dir = gs.orb) :
    gameTick dir orbCands gs =
      (generateOrb orbCands
          ((gs.orb :: gs.snake.dropLast) ++ [(gs.orb :: gs.snake.dropLast).getLastD (0, 0)])
          gs.barriers).map
        (fun o2 =>
          ({ snake := (gs.orb :: gs.snake.dropLast) ++
                [(gs.orb :: gs.snake.dropLast).getLastD (0, 0)],
             orb := o2, barriers := gs.barriers, score := gs.score - 1 + 100,
             highscore := gs.highscore }, false)) := by
  unfold gameTick
  dsimp only
  rw [h, ho]
  simp only [Bool.false_eq_true, if_false, if_pos rfl]
  cases generateOrb orbCands
      ((gs.orb :: gs.snake.dropLast) ++ [(gs.orb :: gs.snake.dropLast).getLastD (0, 0)])
      gs.barriers <;> rfl

theorem gameTick_eq_move (dir : Direction) (orbCands : List Cell) (gs : GameState)
    (h : (gs.snake.contains (stepCell (gs.snake.headD (0, 0)) dir) ||
          gs.barriers.contains (stepCell (gs.snake.headD (0, 0)) dir)) = false)
    (ho : stepCell (gs.snake.headD (0, 0)) dir ≠ gs.orb) :
    gameTick dir orbCands gs =
      some ({ gs with
                snake := (stepCell (gs.snake.headD (0, 0)) dir :: gs.snake.dropLast),
                score := gs.score - 1 }, false) := by
  unfold gameTick
  dsimp only
  rw [h]
  simp only [Bool.false_eq_true, if_false]
  rw [if_neg ho]

/-! ## C3: collision tick -/

/-- Claim C3: when the computed new head lies in the full current snake body
(tail included) or in the barriers, the tick first applies the unconditional
-1 movement cost and then terminates the episode with the high score updated
to `max(previous, decremented score)`, leaving snake, orb and barriers
untouched (no shift, no growth, no orb regeneration). -/
theorem c3_collision_tick (dir : Direction) (orbCands : List Cell) (gs : GameState)
    (h : stepCell (gs.snake.headD (0, 0)) dir ∈ gs.snake ∨
         stepCell (gs.snake.headD (0, 0)) dir ∈ gs.barriers) :
    ∃ gs', gameTick dir orbCands gs = some (gs', true) ∧
      gs'.snake = gs.snake ∧ gs'.orb = gs.orb ∧ gs'.barriers = gs.barriers ∧
      gs'.score = gs.score - 1 ∧ gs'.highscore = max gs.highscore (gs.score - 1) := by
  have hb : (gs.snake.contains (stepCell (gs.snake.headD (0, 0)) dir) ||
      gs.barriers.contains (stepCell (gs.snake.headD (0, 0)) dir)) = true := by
    rw [Bool.or_eq_true, contains_true_iff, contains_true_iff]
    exact h
  exact ⟨_, gameTick_eq_collision dir orbCands gs hb, rfl, rfl, rfl, rfl, rfl⟩

/-- Witness for C3 at a concrete colliding state. -/
theorem c3_collision_tick_witness :
    ∃ gs', gameTick .DOWN [] ⟨[(2, 2), (2, 3)], (4, 4), [], 10, 3⟩ = some (gs', true) ∧
      gs'.snake = [(2, 2), (2, 3)] ∧ gs'.orb = (4, 4) ∧ gs'.barriers = [] ∧
      gs'.score = 9 ∧ gs'.highscore = max 3 9 :=
  c3_collision_tick .DOWN [] ⟨[(2, 2), (2, 3)], (4, 4), [], 10, 3⟩ (by left; decide)

/-! ## C2: growth tick -/

/-- Claim C2: a tick whose computed new head does not collide and lands
exactly on the orb grows the snake by one cell (a duplicate of the new tail
cell), changes the score by exactly +99 (-1 movement, +100 collection), and
produces a new orb lying neither in the grown snake nor in the barriers. -/
theorem c2_growth_tick (dir : Direction) (orbCands : List Cell) (gs : GameState)
    (hne : gs.snake ≠ [])
    (hs : stepCell (gs.snake.headD (0, 0)) dir ∉ gs.snake)
    (hb : stepCell (gs.snake.headD (0, 0)) dir ∉ gs.barriers)
    (ho : stepCell (gs.snake.headD (0, 0)) dir = gs.orb)
    (gs' : GameState) (done : Bool)
    (h : gameTick dir orbCands gs = some (gs', done)) :
    gs'.snake.length = gs.snake.length + 1 ∧
    gs'.snake = (gs.orb :: gs.snake.dropLast) ++ [(gs.orb :: gs.snake.dropLast).getLastD (0, 0)] ∧
    gs'.score = gs.score + 99 ∧
    gs'.orb ∉ gs'.snake ∧ gs'.orb ∉ gs'.barriers ∧ done = false := by
  have hcol : (gs.snake.contains (stepCell (gs.snake.headD (0, 0)) dir) ||
      gs.barriers.contains (stepCell (gs.snake.headD (0, 0)) dir)) = false := by
    rw [Bool.or_eq_false_iff, contains_false_iff, contains_false_iff]
    exact ⟨hs, hb⟩
  rw [gameTick_eq_grow dir orbCands gs hcol ho] at h
  rcases hfind : generateOrb orbCands
      ((gs.orb :: gs.snake.dropLast) ++ [(gs.orb :: gs.snake.dropLast).getLastD (0, 0)])
      gs.barriers with _ | o2
  · rw [hfind] at h
    simp at h
  · rw [hfind] at h
    simp only [Option.map_some', Option.some_inj, Prod.mk.injEq] at h
    obtain ⟨h1, h2⟩ := h
    subst h1
    subst h2
    have hfresh := List.find?_some hfind
    simp only [Bool.and_eq_true, Bool.not_eq_true'] at hfresh
    have hf1 : o2 ∉ (gs.orb :: gs.snake.dropLast) ++
        [(gs.orb :: gs.snake.dropLast).getLastD (0, 0)] := by
      have := hfresh.1
      simpa using this
    have hf2 : o2 ∉ gs.barriers := by
      have := hfresh.2
      simpa using this
    have hpos : 0 < gs.snake.length := List.length_pos_of_ne_nil hne
    refine ⟨?_, rfl, by dsimp only; omega, hf1, hf2, rfl⟩
    dsimp only
    simp only [List.length_append, List.length_cons, List.length_nil, List.length_dropLast]
    omega

/-- Witness for C2 at a concrete collecting state. -/
theorem c2_growth_tick_witness :
    ([(3, 2), (2, 2), (2, 2)] : List Cell).length = ([(2, 2), (2, 3)] : List Cell).length + 1 ∧
    ([(3, 2), (2, 2), (2, 2)] : List Cell) =
      (((3, 2) : Cell) :: ([(2, 2), (2, 3)] : List Cell).dropLast) ++
        [(((3, 2) : Cell) :: ([(2, 2), (2, 3)] : List Cell).dropLast).getLastD (0, 0)] ∧
    (104 : Int) = 5 + 99 ∧
    ((0, 0) : Cell) ∉ ([(3, 2), (2, 2), (2, 2)] : List Cell) ∧
    ((0, 0) : Cell) ∉ ([] : List Cell) ∧ false = false := by
  have h := c2_growth_tick .RIGHT [(0, 0)] ⟨[(2, 2), (2, 3)], (3, 2), [], 5, 7⟩
    (by decide) (by decide) (by decide) (by decide)
    ⟨[(3, 2), (2, 2), (2, 2)], (0, 0), [], 104, 7⟩ false (by decide)
  simpa using h

/-! ## C9: reset -/

/-- Claim C9: `resetGame` restores the snake to the fixed 3-cell start
configuration `[(5,5),(5,6),(5,7)]` and zeroes the score, while the high
score keeps exactly its previous value. -/
theorem c9_reset (newBarriers orbCands : List Cell) (gs gs' : GameState)
    (h : resetGame newBarriers orbCands gs = some gs') :
    gs'.snake = [(5, 5), (5, 6), (5, 7)] ∧ gs'.score = 0 ∧ gs'.highscore = gs.highscore := by
  unfold resetGame at h
  rcases hfind : generateOrb orbCands [(5, 5), (5, 6), (5, 7)] newBarriers with _ | o
  · rw [hfind] at h
    exact absurd h (by simp)
  · rw [hfind] at h
    injection h with h2
    subst h2
    exact ⟨rfl, rfl, rfl⟩

/-- Witness for C9 at a concrete state. -/
theorem c9_reset_witness :
    (⟨[(5, 5), (5, 6), (5, 7)], (0, 0), [(1, 1)], 0, 42⟩ : GameState).snake =
        [(5, 5), (5, 6), (5, 7)] ∧
      (⟨[(5, 5), (5, 6), (5, 7)], (0, 0), [(1, 1)], 0, 42⟩ : GameState).score = 0 ∧
      (⟨[(5, 5), (5, 6), (5, 7)], (0, 0), [(1, 1)], 0, 42⟩ : GameState).highscore =
        (⟨[(9, 9)], (3, 3), [], -5, 42⟩ : GameState).highscore :=
  c9_reset [(1, 1)] [(0, 0)] ⟨[(9, 9)], (3, 3), [], -5, 42⟩
    ⟨[(5, 5), (5, 6), (5, 7)], (0, 0), [(1, 1)], 0, 42⟩ (by decide)

/-! ## C8: validity predicates differ on the tail cell -/

/-- Claim C8: `aStarPolicy`'s validity predicate treats every snake cell,
tail included, as occupied, while the heuristic and hybrid predicates only
exclude the body without the tail; consequently there is an input (here a
2-cell snake on a 5x5 grid) whose tail cell is rejected by the A* predicate
but accepted by the other two. -/
theorem c8_validity_tail_asymmetry :
    (∀ (W H : Nat) (snake barriers : List Cell) (c : Cell), c ∈ snake →
        isValidA W H snake barriers c = false) ∧
    (∀ (W H : Nat) (snake barriers : List Cell) (c : Cell), inBoundsB W H c = true →
        c ∉ snake.dropLast → c ∉ barriers →
        isValidHeu W H snake barriers c = true ∧ isValidHyb W H snake barriers c = true) ∧
    (isValidA 5 5 [(1, 1), (1, 2)] [] (1, 2) = false ∧
      isValidHeu 5 5 [(1, 1), (1, 2)] [] (1, 2) = true ∧
      isValidHyb 5 5 [(1, 1), (1, 2)] [] (1, 2) = true ∧
      ([(1, 1), (1, 2)] : List Cell).getLastD (0, 0) = (1, 2)) := by
  refine ⟨?_, ?_, by decide, by decide, by decide, by decide⟩
  · intro W H snake barriers c h
    simp [isValidA]
    intro _ hn
    exact absurd h hn
  · intro W H snake barriers c h1 h2 h3
    constructor <;>
      · simp [isValidHeu, isValidHyb, h1]
        exact ⟨h2, h3⟩

/-- Witness for C8's quantified parts at concrete inputs. -/
theorem c8_validity_tail_asymmetry_witness :
    isValidA 3 3 [(0, 0)] [] (0, 0) = false ∧
      isValidHeu 3 3 [(1, 1), (0, 0)] [] (0, 0) = true ∧
      isValidHyb 3 3 [(1, 1), (0, 0)] [] (0, 0) = true :=
  ⟨c8_validity_tail_asymmetry.1 3 3 [(0, 0)] [] (0, 0) (by decide),
    (c8_validity_tail_asymmetry.2.1 3 3 [(1, 1), (0, 0)] [] (0, 0) (by decide) (by decide)
        (by decide)).1,
    (c8_validity_tail_asymmetry.2.1 3 3 [(1, 1), (0, 0)] [] (0, 0) (by decide) (by decide)
        (by decide)).2⟩

/-! ## C10: the tail-exclusion mismatch can kill the snake -/

/-- Claim C10 (implicit): because `heuristicPolicy` and `hybridPolicy` count the
current tail cell as a valid head cell while `gameLoop`'s collision check tests
the new head against the full pre-shift body, there are well-formed states, each
with a direction whose resulting head lies outside the whole snake and all
barriers, in which the policy nevertheless returns the direction onto the tail
cell, and one tick with that direction terminates the episode.  The first
scenario exercises `heuristicPolicy` (orb straight below the tail), the second
`hybridPolicy` (barriers around the only other valid cell make its area score
1 against 41). -/
theorem c10_tail_trap :
    (∀ rnd, heuristicPolicy rnd [(2, 2), (3, 2), (3, 3), (2, 3)] (2, 4) 7 7 [] = .DOWN) ∧
    stepCell (2, 2) .DOWN = ([(2, 2), (3, 2), (3, 3), (2, 3)] : List Cell).getLastD (0, 0) ∧
    stepCell (2, 2) .UP ∉ ([(2, 2), (3, 2), (3, 3), (2, 3)] : List Cell) ∧
    inBoundsB 7 7 (stepCell (2, 2) .UP) = true ∧
    gameTick .DOWN [] ⟨[(2, 2), (3, 2), (3, 3), (2, 3)], (2, 4), [], 0, 0⟩ =
      some (⟨[(2, 2), (3, 2), (3, 3), (2, 3)], (2, 4), [], -1, 0⟩, true) ∧
    (∀ rnd, hybridPolicy rnd [(3, 3), (4, 3), (4, 4), (3, 4)] (3, 6) 7 7
        [(2, 2), (3, 1), (4, 2), (2, 3)] = .DOWN) ∧
    stepCell (3, 3) .DOWN = ([(3, 3), (4, 3), (4, 4), (3, 4)] : List Cell).getLastD (0, 0) ∧
    stepCell (3, 3) .UP ∉ ([(3, 3), (4, 3), (4, 4), (3, 4)] : List Cell) ∧
    stepCell (3, 3) .UP ∉ ([(2, 2), (3, 1), (4, 2), (2, 3)] : List Cell) ∧
    inBoundsB 7 7 (stepCell (3, 3) .UP) = true ∧
    gameTick .DOWN [] ⟨[(3, 3), (4, 3), (4, 4), (3, 4)], (3, 6),
        [(2, 2), (3, 1), (4, 2), (2, 3)], 0, 0⟩ =
      some (⟨[(3, 3), (4, 3), (4, 4), (3, 4)], (3, 6),
        [(2, 2), (3, 1), (4, 2), (2, 3)], -1, 0⟩, true) := by
  refine ⟨?_, by decide, by decide, by decide, by decide, ?_, by decide, by decide, by decide,
    by decide, by decide⟩
  · intro rnd
    cases rnd <;> decide
  · intro rnd
    cases rnd <;> decide

/-! ## Behaviour of Python `min`/`max` with a key -/

theorem pyMinFold_spec {α κ : Type} (lt : κ → κ → Bool) (k : α → κ)
    (htr : ∀ a b c, lt a b = true → lt b c = true → lt a c = true)
    (hneg : ∀ a b c, lt a c = true → lt a b = true ∨ lt b c = true)
    (hirr : ∀ a, lt a a = false) :
    ∀ (xs : List α) (x : α),
      xs.foldl (fun acc y => if lt (k y) (k acc) then y else acc) x ∈ x :: xs ∧
      ∀ y ∈ x :: xs,
        lt (k y) (k (xs.foldl (fun acc y => if lt (k y) (k acc) then y else acc) x)) = false := by
  intro xs
  induction xs with
  | nil =>
    intro x
    refine ⟨by simp, ?_⟩
    intro y hy
    rw [List.mem_singleton] at hy
    subst hy
    simpa using hirr (k y)
  | cons z zs ih =>
    intro x
    simp only [List.foldl_cons]
    by_cases hzx : lt (k z) (k x) = true
    · rw [if_pos hzx]
      obtain ⟨hmem, hall⟩ := ih z
      refine ⟨List.mem_cons_of_mem x hmem, ?_⟩
      intro y hy
      rcases List.mem_cons.mp hy with rfl | hy2
      · cases hb : lt (k y) (k (zs.foldl (fun acc w => if lt (k w) (k acc) then w else acc) z)) with
        | false => rfl
        | true =>
          have h1 := htr (k z) (k y)
            (k (zs.foldl (fun acc w => if lt (k w) (k acc) then w else acc) z)) hzx hb
          have h2 := hall z (List.mem_cons_self z zs)
          rw [h1] at h2
          exact Bool.noConfusion h2
      · exact hall y hy2
    · rw [if_neg hzx]
      obtain ⟨hmem, hall⟩ := ih x
      refine ⟨?_, ?_⟩
      · rcases List.mem_cons.mp hmem with h | h
        · rw [h]
          exact List.mem_cons_self _ _
        · exact List.mem_cons_of_mem x (List.mem_cons_of_mem z h)
      · intro y hy
        rcases List.mem_cons.mp hy with rfl | hy2
        · exact hall y (List.mem_cons_self y zs)
        rcases List.mem_cons.mp hy2 with rfl | hy3
        · cases hb : lt (k y) (k (zs.foldl (fun acc w => if lt (k w) (k acc) then w else acc) x)) with
          | false => rfl
          | true =>
            rcases hneg (k y) (k x)
              (k (zs.foldl (fun acc w => if lt (k w) (k acc) then w else acc) x)) hb with h1 | h1
            · exact absurd h1 hzx
            · have h2 := hall x (List.mem_cons_self x zs)
              rw [h1] at h2
              exact Bool.noConfusion h2
        · exact hall y (List.mem_cons_of_mem x hy3)

theorem pyMin_spec {α κ : Type} (lt : κ → κ → Bool) (k : α → κ)
    (htr : ∀ a b c, lt a b = true → lt b c = true → lt a c = true)
    (hneg : ∀ a b c, lt a c = true → lt a b = true ∨ lt b c = true)
    (hirr : ∀ a, lt a a = false)
    (l : List α) (hl : l ≠ []) :
    ∃ m, pyMin lt k l = some m ∧ m ∈ l ∧ ∀ y ∈ l, lt (k y) (k m) = false := by
  match l, hl with
  | x :: xs, _ =>
    obtain ⟨hmem, hall⟩ := pyMinFold_spec lt k htr hneg hirr xs x
    exact ⟨_, rfl, hmem, hall⟩

theorem pyMax_spec {α κ : Type} (lt : κ → κ → Bool) (k : α → κ)
    (htr : ∀ a b c, lt a b = true → lt b c = true → lt a c = true)
    (hneg : ∀ a b c, lt a c = true → lt a b = true ∨ lt b c = true)
    (hirr : ∀ a, lt a a = false)
    (l : List α) (hl : l ≠ []) :
    ∃ m, pyMax lt k l = some m ∧ m ∈ l ∧ ∀ y ∈ l, lt (k m) (k y) = false := by
  match l, hl with
  | x :: xs, _ =>
    obtain ⟨hmem, hall⟩ := pyMinFold_spec (fun a b => lt b a) k
      (fun a b c h1 h2 => htr c b a h2 h1)
      (fun a b c h1 => Or.symm (hneg c b a h1)) (fun a => hirr a) xs x
    exact ⟨_, rfl, hmem, hall⟩

theorem lex3Lt_trans (a b c : Nat × Nat × Int) :
    lex3Lt a b = true → lex3Lt b c = true → lex3Lt a c = true := by
  obtain ⟨a1, a2, a3⟩ := a
  obtain ⟨b1, b2, b3⟩ := b
  obtain ⟨c1, c2, c3⟩ := c
  simp only [lex3Lt, Bool.or_eq_true, Bool.and_eq_true, decide_eq_true_eq]
  omega

theorem lex3Lt_total (a b c : Nat × Nat × Int) :
    lex3Lt a c = true → lex3Lt a b = true ∨ lex3Lt b c = true := by
  obtain ⟨a1, a2, a3⟩ := a
  obtain ⟨b1, b2, b3⟩ := b
  obtain ⟨c1, c2, c3⟩ := c
  simp only [lex3Lt, Bool.or_eq_true, Bool.and_eq_true, decide_eq_true_eq]
  omega

theorem lex3Lt_irrefl (a : Nat × Nat × Int) : lex3Lt a a = false := by
  obtain ⟨a1, a2, a3⟩ := a
  simp only [lex3Lt]
  simp

/-! ## The move lists as filtered maps over the four directions -/

theorem heuristicMoves_eq (snake : List Cell) (orb : Cell) (W H : Nat) (barriers : List Cell) :
    heuristicMoves snake orb W H barriers =
      (dirList.filter
          (fun dr => isValidHeu W H snake barriers (stepCell (snake.headD (0, 0)) dr))).map
        (fun dr => (dr, manhattan (stepCell (snake.headD (0, 0)) dr) orb)) := by
  unfold heuristicMoves
  dsimp only
  exact foldr_if_eq_filter_map _ _ _

theorem hybridMoves_eq (snake : List Cell) (orb : Cell) (W H : Nat) (barriers : List Cell) :
    hybridMoves snake orb W H barriers =
      (dirList.filter
          (fun dr => isValidHyb W H snake barriers (stepCell (snake.headD (0, 0)) dr))).map
        (fun dr => (dr, manhattan (stepCell (snake.headD (0, 0)) dr) orb,
          floodFillArea (stepCell (snake.headD (0, 0)) dr) snake barriers W H,
          tailDistOf snake (stepCell (snake.headD (0, 0)) dr))) := by
  unfold hybridMoves
  dsimp only
  exact foldr_if_eq_filter_map _ _ _

/-! ## C5: the greedy policy minimizes distance over valid moves -/

/-- Claim C5: whenever some direction yields a valid head cell (in bounds,
outside the body-without-tail, not a barrier), `heuristicPolicy` returns a
direction whose head is valid and whose Manhattan distance to the orb is
minimal among all valid directions; in particular it never picks an invalid
direction while a valid one exists. -/
theorem c5_greedy_min_distance (rnd : Direction) (snake : List Cell) (orb : Cell)
    (W H : Nat) (barriers : List Cell)
    (hex : ∃ dr, isValidHeu W H snake barriers (stepCell (snake.headD (0, 0)) dr) = true) :
    isValidHeu W H snake barriers
      (stepCell (snake.headD (0, 0)) (heuristicPolicy rnd snake orb W H barriers)) = true ∧
    ∀ dr, isValidHeu W H snake barriers (stepCell (snake.headD (0, 0)) dr) = true →
      manhattan (stepCell (snake.headD (0, 0)) (heuristicPolicy rnd snake orb W H barriers))
          orb ≤
        manhattan (stepCell (snake.headD (0, 0)) dr) orb := by
  obtain ⟨dr0, hdr0⟩ := hex
  have hmem0 : (dr0, manhattan (stepCell (snake.headD (0, 0)) dr0) orb) ∈
      heuristicMoves snake orb W H barriers := by
    rw [heuristicMoves_eq]
    exact List.mem_map_of_mem _ (List.mem_filter.mpr ⟨mem_dirList dr0, hdr0⟩)
  obtain ⟨m, hm_eq, hm_mem, hm_min⟩ :=
    pyMin_spec (fun a b => a < b) (fun p : Direction × Nat => p.2)
      (by intro a b c h1 h2; simp at *; omega)
      (by intro a b c h1; simp at *; omega)
      (by intro a; simp)
      (heuristicMoves snake orb W H barriers) (List.ne_nil_of_mem hmem0)
  have hpol : heuristicPolicy rnd snake orb W H barriers = m.1 := by
    unfold heuristicPolicy
    rw [hm_eq]
  rw [heuristicMoves_eq] at hm_mem
  obtain ⟨dm, hdm_filter, hdm_eq⟩ := List.mem_map.mp hm_mem
  obtain ⟨-, hdm_valid⟩ := List.mem_filter.mp hdm_filter
  have hm1 : m.1 = dm := by rw [← hdm_eq]
  have hm2 : m.2 = manhattan (stepCell (snake.headD (0, 0)) dm) orb := by rw [← hdm_eq]
  constructor
  · rw [hpol, hm1]
    exact hdm_valid
  · intro dr hdr
    have hmemdr : (dr, manhattan (stepCell (snake.headD (0, 0)) dr) orb) ∈
        heuristicMoves snake orb W H barriers := by
      rw [heuristicMoves_eq]
      exact List.mem_map_of_mem _ (List.mem_filter.mpr ⟨mem_dirList dr, hdr⟩)
    have := hm_min _ hmemdr
    simp only [decide_eq_false_iff_not, Nat.not_lt] at this
    rw [hpol, hm1, ← hm2]
    simpa using this

/-- Witness for C5 at a concrete state. -/
theorem c5_greedy_min_distance_witness :
    isValidHeu 5 5 [(2, 2), (2, 3)] []
      (stepCell (([(2, 2), (2, 3)] : List Cell).headD (0, 0))
        (heuristicPolicy .DOWN [(2, 2), (2, 3)] (0, 2) 5 5 [])) = true ∧
    ∀ dr, isValidHeu 5 5 [(2, 2), (2, 3)] []
        (stepCell (([(2, 2), (2, 3)] : List Cell).headD (0, 0)) dr) = true →
      manhattan
          (stepCell (([(2, 2), (2, 3)] : List Cell).headD (0, 0))
            (heuristicPolicy .DOWN [(2, 2), (2, 3)] (0, 2) 5 5 []))
          (0, 2) ≤
        manhattan (stepCell (([(2, 2), (2, 3)] : List Cell).headD (0, 0)) dr) (0, 2) :=
  c5_greedy_min_distance .DOWN [(2, 2), (2, 3)] (0, 2) 5 5 [] ⟨.UP, by decide⟩

/-! ## C4: the hybrid policy maximizes (area, tailDistance, -proximity) -/

/-- Claim C4: whenever some direction yields a valid head cell, `hybridPolicy`
returns a direction whose head is valid and whose score triple
`(areaScore, tailDistance, -proximityScore)` is lexicographically maximal over
all valid directions; in particular a valid move of strictly larger area score
is always preferred, and no invalid direction is chosen while a valid one
exists. -/
theorem c4_hybrid_lex_max (rnd : Direction) (snake : List Cell) (orb : Cell)
    (W H : Nat) (barriers : List Cell)
    (hex : ∃ dr, isValidHyb W H snake barriers (stepCell (snake.headD (0, 0)) dr) = true) :
    isValidHyb W H snake barriers
      (stepCell (snake.headD (0, 0)) (hybridPolicy rnd snake orb W H barriers)) = true ∧
    ∀ dr, isValidHyb W H snake barriers (stepCell (snake.headD (0, 0)) dr) = true →
      lex3Lt
          (floodFillArea
              (stepCell (snake.headD (0, 0)) (hybridPolicy rnd snake orb W H barriers))
              snake barriers W H,
            tailDistOf snake
              (stepCell (snake.headD (0, 0)) (hybridPolicy rnd snake orb W H barriers)),
            -(manhattan
                (stepCell (snake.headD (0, 0)) (hybridPolicy rnd snake orb W H barriers))
                orb : Int))
          (floodFillArea (stepCell (snake.headD (0, 0)) dr) snake barriers W H,
            tailDistOf snake (stepCell (snake.headD (0, 0)) dr),
            -(manhattan (stepCell (snake.headD (0, 0)) dr) orb : Int)) = false ∧
      floodFillArea (stepCell (snake.headD (0, 0)) dr) snake barriers W H ≤
        floodFillArea
          (stepCell (snake.headD (0, 0)) (hybridPolicy rnd snake orb W H barriers))
          snake barriers W H := by
  obtain ⟨dr0, hdr0⟩ := hex
  have hmem0 : (dr0, manhattan (stepCell (snake.headD (0, 0)) dr0) orb,
      floodFillArea (stepCell (snake.headD (0, 0)) dr0) snake barriers W H,
      tailDistOf snake (stepCell (snake.headD (0, 0)) dr0)) ∈
      hybridMoves snake orb W H barriers := by
    rw [hybridMoves_eq]
    exact List.mem_map_of_mem _ (List.mem_filter.mpr ⟨mem_dirList dr0, hdr0⟩)
  obtain ⟨m, hm_eq, hm_mem, hm_max⟩ :=
    pyMax_spec lex3Lt hybridKey lex3Lt_trans lex3Lt_total lex3Lt_irrefl
      (hybridMoves snake orb W H barriers) (List.ne_nil_of_mem hmem0)
  have hpol : hybridPolicy rnd snake orb W H barriers = m.1 := by
    unfold hybridPolicy
    rw [hm_eq]
  rw [hybridMoves_eq] at hm_mem
  obtain ⟨dm, hdm_filter, hdm_eq⟩ := List.mem_map.mp hm_mem
  obtain ⟨-, hdm_valid⟩ := List.mem_filter.mp hdm_filter
  have hm1 : m.1 = dm := by rw [← hdm_eq]
  have hkey : hybridKey m =
      (floodFillArea (stepCell (snake.headD (0, 0)) dm) snake barriers W H,
        tailDistOf snake (stepCell (snake.headD (0, 0)) dm),
        -(manhattan (stepCell (snake.headD (0, 0)) dm) orb : Int)) := by
    rw [← hdm_eq]
    rfl
  constructor
  · rw [hpol, hm1]
    exact hdm_valid
  · intro dr hdr
    have hmemdr : (dr, manhattan (stepCell (snake.headD (0, 0)) dr) orb,
        floodFillArea (stepCell (snake.headD (0, 0)) dr) snake barriers W H,
        tailDistOf snake (stepCell (snake.headD (0, 0)) dr)) ∈
        hybridMoves snake orb W H barriers := by
      rw [hybridMoves_eq]
      exact List.mem_map_of_mem _ (List.mem_filter.mpr ⟨mem_dirList dr, hdr⟩)
    have hlt := hm_max _ hmemdr
    rw [hkey] at hlt
    have hkeydr : hybridKey (dr, manhattan (stepCell (snake.headD (0, 0)) dr) orb,
        floodFillArea (stepCell (snake.headD (0, 0)) dr) snake barriers W H,
        tailDistOf snake (stepCell (snake.headD (0, 0)) dr)) =
        (floodFillArea (stepCell (snake.headD (0, 0)) dr) snake barriers W H,
          tailDistOf snake (stepCell (snake.headD (0, 0)) dr),
          -(manhattan (stepCell (snake.headD (0, 0)) dr) orb : Int)) := rfl
    rw [hkeydr] at hlt
    rw [hpol, hm1]
    refine ⟨hlt, ?_⟩
    have := hlt
    simp only [lex3Lt, Bool.or_eq_false_iff, Bool.and_eq_false_iff,
      decide_eq_false_iff_not] at this
    omega

/-- Witness for C4 at a concrete state. -/
theorem c4_hybrid_lex_max_witness :
    isValidHyb 5 5 [(2, 2), (2, 3)] []
      (stepCell (([(2, 2), (2, 3)] : List Cell).headD (0, 0))
        (hybridPolicy .DOWN [(2, 2), (2, 3)] (0, 2) 5 5 [])) = true :=
  (c4_hybrid_lex_max .DOWN [(2, 2), (2, 3)] (0, 2) 5 5 [] ⟨.UP, by decide⟩).1


/-! ## Flood-fill correctness (C7) -/

theorem mem_allCells_of_inBounds (W H : Nat) (c : Cell) (h : inBoundsB W H c = true) :
    c ∈ allCells W H := by
  obtain ⟨x, y⟩ := c
  simp only [inBoundsB, decide_eq_true_eq] at h
  obtain ⟨h1, h2, h3, h4⟩ := h
  have hx : x.toNat ∈ List.range W := List.mem_range.mpr (by omega)
  have hy : y.toNat ∈ List.range H := List.mem_range.mpr (by omega)
  have hxy : ((x, y) : Cell) = (Int.ofNat x.toNat, Int.ofNat y.toNat) := by
    rw [Prod.mk.injEq]
    constructor <;> · rw [Int.ofNat_eq_coe]; omega
  rw [hxy]
  unfold allCells
  exact List.mem_flatMap.mpr ⟨x.toNat, hx, List.mem_map_of_mem _ hy⟩

theorem nodup_nbrCells (c : Cell) : (nbrCells c).Nodup := by
  obtain ⟨x, y⟩ := c
  rw [nbrCells, List.nodup_cons, List.nodup_cons, List.nodup_cons]
  refine ⟨?_, ?_, ?_, List.nodup_singleton _⟩ <;>
    · simp only [List.mem_cons, List.mem_singleton, List.not_mem_nil, Prod.mk.injEq, not_or,
        or_false]
      omega

theorem processNbrs_spec (W H : Nat) :
    ∀ (cands vis : List Cell), cands.Nodup →
      (processNbrs W H cands vis).2 =
        cands.filter (fun c => inBoundsB W H c && !(vis.contains c)) ∧
      ∀ x, x ∈ (processNbrs W H cands vis).1 ↔
        x ∈ (processNbrs W H cands vis).2 ∨ x ∈ vis := by
  intro cands
  induction cands with
  | nil =>
    intro vis _
    exact ⟨rfl, by simp [processNbrs]⟩
  | cons c cs ih =>
    intro vis hnd
    rw [List.nodup_cons] at hnd
    obtain ⟨hcn, hnd2⟩ := hnd
    by_cases hcond : (inBoundsB W H c && !(vis.contains c)) = true
    · have heq : processNbrs W H (c :: cs) vis =
          ((processNbrs W H cs (c :: vis)).1, c :: (processNbrs W H cs (c :: vis)).2) := by
        rw [processNbrs]
        rw [if_pos hcond]
      obtain ⟨ih1, ih2⟩ := ih (c :: vis) hnd2
      rw [heq]
      constructor
      · dsimp only
        rw [List.filter_cons, if_pos hcond, ih1]
        congr 1
        refine List.filter_congr ?_
        intro z hz
        have hzc : z ≠ c := fun h => hcn (h ▸ hz)
        have hcc : (c :: vis).contains z = vis.contains z := by
          cases hv : vis.contains z with
          | true =>
            exact (contains_true_iff _ _).mpr
              (List.mem_cons_of_mem c ((contains_true_iff _ _).mp hv))
          | false =>
            refine (contains_false_iff _ _).mpr ?_
            rw [List.mem_cons]
            rintro (h | h)
            · exact hzc h
            · exact (contains_false_iff _ _).mp hv h
        rw [hcc]
      · intro x
        dsimp only
        rw [ih2 x]
        simp only [List.mem_cons]
        tauto
    · have heq : processNbrs W H (c :: cs) vis = processNbrs W H cs vis := by
        rw [processNbrs]
        rw [if_neg hcond]
      obtain ⟨ih1, ih2⟩ := ih vis hnd2
      rw [heq]
      refine ⟨?_, ih2⟩
      rw [List.filter_cons]
      rw [if_neg hcond]
      exact ih1

theorem filter_length_mono {α : Type} (p q : α → Bool)
    (hpq : ∀ x, q x = true → p x = true) :
    ∀ l : List α, (l.filter q).length ≤ (l.filter p).length := by
  intro l
  induction l with
  | nil => simp
  | cons a t ih =>
    rw [List.filter_cons, List.filter_cons]
    cases hq : q a with
    | true =>
      rw [hpq a hq, if_pos rfl, if_pos rfl, List.length_cons, List.length_cons]
      exact Nat.succ_le_succ ih
    | false =>
      rw [if_neg Bool.false_ne_true]
      cases hp : p a with
      | true =>
        rw [if_pos rfl, List.length_cons]
        exact Nat.le_succ_of_le ih
      | false =>
        rw [if_neg Bool.false_ne_true]
        exact ih

theorem filter_length_lt {α : Type} (p q : α → Bool) (a : α)
    (hpq : ∀ x, q x = true → p x = true) (hpa : p a = true) (hqa : q a = false) :
    ∀ l : List α, a ∈ l → (l.filter q).length < (l.filter p).length := by
  intro l
  induction l with
  | nil =>
    intro h
    exact absurd h (List.not_mem_nil a)
  | cons b t ih =>
    intro hmem
    rw [List.filter_cons, List.filter_cons]
    rcases List.mem_cons.mp hmem with rfl | hmem2
    · rw [if_pos hpa, if_neg (by rw [hqa]; exact Bool.false_ne_true), List.length_cons]
      exact Nat.lt_succ_of_le (filter_length_mono p q hpq t)
    · have hlt := ih hmem2
      cases hq : q b with
      | true =>
        rw [if_pos (hpq b hq), if_pos rfl, List.length_cons, List.length_cons]
        exact Nat.succ_lt_succ hlt
      | false =>
        rw [if_neg Bool.false_ne_true]
        cases hp : p b with
        | true =>
          rw [if_pos rfl, List.length_cons]
          exact Nat.lt_succ_of_lt hlt
        | false =>
          rw [if_neg Bool.false_ne_true]
          exact hlt

theorem floodReach_nil (W H : Nat) (vis : List Cell) (c : Cell) :
    ¬ FloodReach W H [] vis c := by
  intro h
  induction h with
  | seed h => exact absurd h (List.not_mem_nil _)
  | step _ _ _ _ ih => exact ih

theorem filter_not_contains_congr (l v1 v2 : List Cell) (h : ∀ x, x ∈ v1 ↔ x ∈ v2) :
    l.filter (fun c => !(v1.contains c)) = l.filter (fun c => !(v2.contains c)) := by
  refine List.filter_congr ?_
  intro z _
  have hz : v1.contains z = v2.contains z := by
    cases hv : v2.contains z with
    | true => exact (contains_true_iff _ _).mpr ((h z).mpr ((contains_true_iff _ _).mp hv))
    | false =>
      refine (contains_false_iff _ _).mpr ?_
      intro hm
      exact (contains_false_iff _ _).mp hv ((h z).mp hm)
  rw [hz]

theorem filter_not_contains_append_le (W H : Nat) :
    ∀ (added vis : List Cell), added.Nodup →
      (∀ a ∈ added, inBoundsB W H a = true ∧ a ∉ vis) →
      ((allCells W H).filter (fun c => !((added ++ vis).contains c))).length + added.length ≤
        ((allCells W H).filter (fun c => !(vis.contains c))).length := by
  intro added
  induction added with
  | nil =>
    intro vis _ _
    rw [List.nil_append, List.length_nil]
    omega
  | cons a rest ih =>
    intro vis hnd hprop
    rw [List.nodup_cons] at hnd
    obtain ⟨har, hndr⟩ := hnd
    have hbound := (hprop a (List.mem_cons_self _ _)).1
    have hnvis := (hprop a (List.mem_cons_self _ _)).2
    have ih2 := ih (a :: vis) hndr (by
      intro b hb
      obtain ⟨h1, h2⟩ := hprop b (List.mem_cons_of_mem _ hb)
      refine ⟨h1, ?_⟩
      rw [List.mem_cons]
      rintro (rfl | hm)
      · exact har hb
      · exact h2 hm)
    have hstep : ((allCells W H).filter (fun c => !((a :: vis).contains c))).length <
        ((allCells W H).filter (fun c => !(vis.contains c))).length := by
      refine filter_length_lt _ _ a ?_ ?_ ?_ _ (mem_allCells_of_inBounds W H a hbound)
      · intro x hx
        rw [Bool.not_eq_true'] at hx ⊢
        refine (contains_false_iff _ _).mpr ?_
        intro hm
        exact (contains_false_iff _ _).mp hx (List.mem_cons_of_mem _ hm)
      · rw [Bool.not_eq_true']
        exact (contains_false_iff _ _).mpr hnvis
      · have hca : (a :: vis).contains a = true :=
          (contains_true_iff _ _).mpr (List.mem_cons_self _ _)
        rw [hca]
        rfl
    have hcongr := filter_not_contains_congr (allCells W H) ((a :: rest) ++ vis)
      (rest ++ (a :: vis)) (by
        intro x
        simp only [List.mem_append, List.mem_cons]
        tauto)
    rw [hcongr, List.length_cons]
    omega

theorem floodReach_step_iff (W H : Nat) (q : Cell) (rest vis : List Cell) (c : Cell) :
    FloodReach W H (q :: rest) vis c ↔
      c = q ∨ FloodReach W H (rest ++ (processNbrs W H (nbrCells q) vis).2)
        (processNbrs W H (nbrCells q) vis).1 c := by
  obtain ⟨hp2, hp1⟩ := processNbrs_spec W H (nbrCells q) vis (nodup_nbrCells q)
  constructor
  · intro h
    induction h with
    | seed hm =>
      rcases List.mem_cons.mp hm with rfl | hm2
      · exact Or.inl rfl
      · exact Or.inr (.seed (List.mem_append_left _ hm2))
    | @step c0 c1 hprev hnbr hin hnvis ih =>
      rcases ih with rfl | hfr
      · refine Or.inr (.seed (List.mem_append_right _ ?_))
        rw [hp2, List.mem_filter]
        refine ⟨hnbr, ?_⟩
        rw [Bool.and_eq_true]
        refine ⟨hin, ?_⟩
        rw [Bool.not_eq_true']
        exact (contains_false_iff _ _).mpr hnvis
      · by_cases hmem : c1 ∈ (processNbrs W H (nbrCells q) vis).2
        · exact Or.inr (.seed (List.mem_append_right _ hmem))
        · refine Or.inr (.step hfr hnbr hin ?_)
          intro hc
          rcases (hp1 _).mp hc with h | h
          · exact hmem h
          · exact hnvis h
  · intro h
    rcases h with rfl | h
    · exact .seed (List.mem_cons_self _ _)
    · induction h with
      | seed hm =>
        rcases List.mem_append.mp hm with hm2 | hm2
        · exact .seed (List.mem_cons_of_mem _ hm2)
        · rw [hp2, List.mem_filter] at hm2
          obtain ⟨hmn, hcond⟩ := hm2
          rw [Bool.and_eq_true] at hcond
          refine .step (.seed (List.mem_cons_self _ _)) hmn hcond.1 ?_
          have h2 := hcond.2
          rw [Bool.not_eq_true'] at h2
          exact (contains_false_iff _ _).mp h2
      | step hprev hnbr hin hnvis ih =>
        refine .step ih hnbr hin ?_
        intro hc
        exact hnvis ((hp1 _).mpr (Or.inr hc))

theorem floodReach_step_not_q (W H : Nat) (q : Cell) (rest vis : List Cell)
    (hnd : q ∉ rest) (hq : q ∈ vis) :
    ¬ FloodReach W H (rest ++ (processNbrs W H (nbrCells q) vis).2)
        (processNbrs W H (nbrCells q) vis).1 q := by
  obtain ⟨hp2, hp1⟩ := processNbrs_spec W H (nbrCells q) vis (nodup_nbrCells q)
  intro h
  cases h with
  | seed hm =>
    rcases List.mem_append.mp hm with hm2 | hm2
    · exact hnd hm2
    · rw [hp2, List.mem_filter] at hm2
      obtain ⟨-, hcond⟩ := hm2
      rw [Bool.and_eq_true] at hcond
      have h2 := hcond.2
      rw [Bool.not_eq_true'] at h2
      exact (contains_false_iff _ _).mp h2 hq
  | step hprev hnbr hin hnvis =>
    exact hnvis ((hp1 _).mpr (Or.inr hq))

theorem floodReach_finite (W H : Nat) (queue vis : List Cell) :
    {c | FloodReach W H queue vis c}.Finite := by
  refine Set.Finite.subset (List.finite_toSet (queue ++ allCells W H)) ?_
  intro c hc
  have : c ∈ queue ++ allCells W H := by
    cases hc with
    | seed hm => exact List.mem_append_left _ hm
    | step _ _ hin _ => exact List.mem_append_right _ (mem_allCells_of_inBounds W H _ hin)
  exact this

theorem floodLoopF_count (W H : Nat) :
    ∀ (fuel : Nat) (queue vis : List Cell),
      floodFuel W H queue vis ≤ fuel → queue.Nodup → (∀ x ∈ queue, x ∈ vis) →
      floodLoopF W H fuel queue vis = some {c | FloodReach W H queue vis c}.ncard := by
  have hempty : ∀ (fuel : Nat) (vis : List Cell),
      floodLoopF W H fuel [] vis = some {c | FloodReach W H ([] : List Cell) vis c}.ncard := by
    intro fuel vis
    have hset : {c | FloodReach W H ([] : List Cell) vis c} = ∅ := by
      ext c
      simp only [Set.mem_setOf_eq, Set.mem_empty_iff_false, iff_false]
      exact floodReach_nil W H vis c
    rw [hset, Set.ncard_empty]
    cases fuel <;> rfl
  intro fuel
  induction fuel with
  | zero =>
    intro queue vis hfuel _ _
    have hq : queue = [] := by
      unfold floodFuel at hfuel
      cases queue with
      | nil => rfl
      | cons a t =>
        rw [List.length_cons] at hfuel
        omega
    subst hq
    exact hempty 0 vis
  | succ fuel ih =>
    intro queue vis hfuel hnd hsub
    cases queue with
    | nil => exact hempty (fuel + 1) vis
    | cons q rest =>
      have hstep : floodLoopF W H (fuel + 1) (q :: rest) vis =
          (floodLoopF W H fuel (rest ++ (processNbrs W H (nbrCells q) vis).2)
            (processNbrs W H (nbrCells q) vis).1).map (· + 1) := rfl
      rw [hstep]
      obtain ⟨hp2, hp1⟩ := processNbrs_spec W H (nbrCells q) vis (nodup_nbrCells q)
      rw [List.nodup_cons] at hnd
      obtain ⟨hqrest, hndrest⟩ := hnd
      have hqvis : q ∈ vis := hsub q (List.mem_cons_self _ _)
      have hadd : ∀ a ∈ (processNbrs W H (nbrCells q) vis).2,
          inBoundsB W H a = true ∧ a ∉ vis := by
        intro a ha
        rw [hp2, List.mem_filter, Bool.and_eq_true] at ha
        obtain ⟨-, h1, h2⟩ := ha
        rw [Bool.not_eq_true'] at h2
        exact ⟨h1, (contains_false_iff _ _).mp h2⟩
      have hnd' : (rest ++ (processNbrs W H (nbrCells q) vis).2).Nodup := by
        rw [List.nodup_append]
        refine ⟨hndrest, ?_, ?_⟩
        · rw [hp2]
          exact (nodup_nbrCells q).filter _
        · intro a ha hb
          exact (hadd a hb).2 (hsub a (List.mem_cons_of_mem _ ha))
      have hsub' : ∀ x ∈ rest ++ (processNbrs W H (nbrCells q) vis).2,
          x ∈ (processNbrs W H (nbrCells q) vis).1 := by
        intro x hx
        rcases List.mem_append.mp hx with h | h
        · exact (hp1 x).mpr (Or.inr (hsub x (List.mem_cons_of_mem _ h)))
        · exact (hp1 x).mpr (Or.inl h)
      have hfuel' : floodFuel W H (rest ++ (processNbrs W H (nbrCells q) vis).2)
          (processNbrs W H (nbrCells q) vis).1 ≤ fuel := by
        unfold floodFuel at hfuel ⊢
        have hnd2 : (processNbrs W H (nbrCells q) vis).2.Nodup := by
          rw [hp2]
          exact (nodup_nbrCells q).filter _
        have hpe := filter_not_contains_append_le W H
          (processNbrs W H (nbrCells q) vis).2 vis hnd2 hadd
        have hcongr := filter_not_contains_congr (allCells W H)
          (processNbrs W H (nbrCells q) vis).1
          ((processNbrs W H (nbrCells q) vis).2 ++ vis) (by
            intro x
            rw [hp1 x, List.mem_append])
        rw [hcongr, List.length_append]
        rw [List.length_cons] at hfuel
        omega
      rw [ih _ _ hfuel' hnd' hsub']
      rw [Option.map_some']
      congr 1
      have hset : {c | FloodReach W H (q :: rest) vis c} =
          insert q {c | FloodReach W H (rest ++ (processNbrs W H (nbrCells q) vis).2)
            (processNbrs W H (nbrCells q) vis).1 c} := by
        ext c
        rw [Set.mem_insert_iff, Set.mem_setOf_eq, Set.mem_setOf_eq]
        exact floodReach_step_iff W H q rest vis c
      rw [hset]
      exact (Set.ncard_insert_of_not_mem
        (show q ∉ {c | FloodReach W H (rest ++ (processNbrs W H (nbrCells q) vis).2)
            (processNbrs W H (nbrCells q) vis).1 c} from
          floodReach_step_not_q W H q rest vis hqrest hqvis)
        (floodReach_finite W H _ _)).symm

theorem floodReach_iff_reachable (start : Cell) (snake barriers : List Cell) (W H : Nat)
    (c : Cell) :
    FloodReach W H [start] (start :: (snake.dropLast ++ barriers)) c ↔
      Reachable start snake barriers W H c := by
  constructor
  · intro h
    induction h with
    | seed hm =>
      rw [List.mem_singleton] at hm
      subst hm
      exact .start
    | @step c0 c1 hprev hnbr hin hnvis ih =>
      have hns : c1 ∉ snake.dropLast ∧ c1 ∉ barriers := by
        constructor
        · intro hmem
          exact hnvis (List.mem_cons_of_mem _ (List.mem_append_left _ hmem))
        · intro hmem
          exact hnvis (List.mem_cons_of_mem _ (List.mem_append_right _ hmem))
      exact .step ih hnbr hin hns.1 hns.2
  · intro h
    induction h with
    | start => exact .seed (List.mem_singleton.mpr rfl)
    | @step c0 c1 hprev hnbr hin hns hnb ih =>
      by_cases hc1 : c1 = start
      · subst hc1
        exact .seed (List.mem_singleton.mpr rfl)
      · refine .step ih hnbr hin ?_
        rw [List.mem_cons]
        rintro (h | h)
        · exact hc1 h
        · rcases List.mem_append.mp h with h2 | h2
          · exact hns h2
          · exact hnb h2

/-- Claim C7: `floodFillArea` returns exactly the number of cells
4-directionally reachable from the start cell through in-bounds cells outside
the body-without-tail and the barriers, the start cell included; in
particular it returns 25 from every interior cell of an empty 5x5 grid. -/
theorem c7_flood_fill_reachable :
    (∀ (start : Cell) (snake barriers : List Cell) (W H : Nat),
        floodFillArea start snake barriers W H =
          {c | Reachable start snake barriers W H c}.ncard) ∧
    floodFillArea (1, 1) [] [] 5 5 = 25 ∧ floodFillArea (1, 2) [] [] 5 5 = 25 ∧
    floodFillArea (1, 3) [] [] 5 5 = 25 ∧ floodFillArea (2, 1) [] [] 5 5 = 25 ∧
    floodFillArea (2, 2) [] [] 5 5 = 25 ∧ floodFillArea (2, 3) [] [] 5 5 = 25 ∧
    floodFillArea (3, 1) [] [] 5 5 = 25 ∧ floodFillArea (3, 2) [] [] 5 5 = 25 ∧
    floodFillArea (3, 3) [] [] 5 5 = 25 := by
  refine ⟨?_, by decide, by decide, by decide, by decide, by decide, by decide, by decide,
    by decide, by decide⟩
  intro start snake barriers W H
  have hcount := floodLoopF_count W H
    (floodFuel W H [start] (start :: (snake.dropLast ++ barriers)))
    [start] (start :: (snake.dropLast ++ barriers))
    (le_refl _) (List.nodup_singleton _) (by
      intro x hx
      rw [List.mem_singleton] at hx
      subst hx
      exact List.mem_cons_self _ _)
  unfold floodFillArea
  dsimp only
  rw [hcount]
  rw [Option.getD_some]
  congr 1
  ext c
  rw [Set.mem_setOf_eq, Set.mem_setOf_eq]
  exact floodReach_iff_reachable start snake barriers W H c

/-! ## Sorting and path lemmas for the A* policy -/

theorem insF_perm (e : Ent) : ∀ l : List Ent, List.Perm (insF e l) (e :: l) := by
  intro l
  induction l with
  | nil => exact List.Perm.refl _
  | cons x xs ih =>
    rw [insF]
    by_cases h : e.f ≤ x.f
    · rw [if_pos h]
    · rw [if_neg h]
      exact (List.Perm.cons x ih).trans (List.Perm.swap e x xs)

theorem sortF_perm : ∀ l : List Ent, List.Perm (sortF l) l := by
  intro l
  induction l with
  | nil => exact List.Perm.refl _
  | cons x xs ih =>
    rw [sortF]
    exact (insF_perm x (sortF xs)).trans (List.Perm.cons x ih)

theorem mem_insF (e a : Ent) (l : List Ent) : a ∈ insF e l ↔ a = e ∨ a ∈ l := by
  rw [(insF_perm e l).mem_iff, List.mem_cons]

theorem insF_pairwise (e : Ent) :
    ∀ l : List Ent, l.Pairwise (fun a b => a.f ≤ b.f) →
      (insF e l).Pairwise (fun a b => a.f ≤ b.f) := by
  intro l
  induction l with
  | nil =>
    intro _
    exact List.pairwise_singleton _ _
  | cons x xs ih =>
    intro h
    rw [List.pairwise_cons] at h
    obtain ⟨hx, hxs⟩ := h
    rw [insF]
    by_cases hef : e.f ≤ x.f
    · rw [if_pos hef]
      rw [List.pairwise_cons]
      refine ⟨?_, List.pairwise_cons.mpr ⟨hx, hxs⟩⟩
      intro b hb
      rcases List.mem_cons.mp hb with rfl | hb2
      · exact hef
      · exact le_trans hef (hx b hb2)
    · rw [if_neg hef]
      rw [List.pairwise_cons]
      refine ⟨?_, ih hxs⟩
      intro b hb
      rcases (mem_insF e b xs).mp hb with rfl | hb2
      · omega
      · exact hx b hb2

theorem sortF_pairwise : ∀ l : List Ent, (sortF l).Pairwise (fun a b => a.f ≤ b.f) := by
  intro l
  induction l with
  | nil => exact List.Pairwise.nil
  | cons x xs ih =>
    rw [sortF]
    exact insF_pairwise x (sortF xs) ih

theorem applyPath_append_one (c : Cell) (p : List Direction) (d : Direction) :
    applyPath c (p ++ [d]) = stepCell (applyPath c p) d := by
  simp [applyPath, List.foldl_append]

theorem manhattan_applyPath_le : ∀ (p : List Direction) (c : Cell),
    manhattan c (applyPath c p) ≤ p.length := by
  intro p
  induction p with
  | nil =>
    intro c
    simp [applyPath, manhattan]
  | cons d p ih =>
    intro c
    have h1 : applyPath c (d :: p) = applyPath (stepCell c d) p := rfl
    rw [h1, List.length_cons]
    have h2 := manhattan_triangle c (stepCell c d) (applyPath (stepCell c d) p)
    have h3 := manhattan_stepCell c d
    have h4 := ih (stepCell c d)
    omega

theorem sound_f_ge (start orb : Cell) (e : Ent) (h : SoundE start orb e) :
    manhattan start orb ≤ e.f := by
  obtain ⟨h1, h2, h3⟩ := h
  have h4 := manhattan_triangle start e.cell orb
  have h5 := manhattan_applyPath_le e.path start
  rw [h1] at h5
  omega

theorem sound_fd (start orb : Cell) (e : Ent) (h : SoundE start orb e)
    (hf : e.f = manhattan start orb) :
    Geo start orb e.cell ∧ e.g = manhattan start e.cell := by
  obtain ⟨h1, h2, h3⟩ := h
  have h4 := manhattan_triangle start e.cell orb
  have h5 := manhattan_applyPath_le e.path start
  rw [h1] at h5
  unfold Geo
  omega

theorem geo_succ (c orb : Cell) (h : 1 ≤ manhattan c orb) :
    ∃ dr : Direction, manhattan (stepCell c dr) orb + 1 = manhattan c orb := by
  obtain ⟨cx, cy⟩ := c
  obtain ⟨ox, oy⟩ := orb
  simp only [manhattan] at h
  by_cases h1 : cx < ox
  · refine ⟨.RIGHT, ?_⟩
    simp only [stepCell, offOf, manhattan]
    omega
  by_cases h2 : ox < cx
  · refine ⟨.LEFT, ?_⟩
    simp only [stepCell, offOf, manhattan]
    omega
  by_cases h3 : cy < oy
  · refine ⟨.DOWN, ?_⟩
    simp only [stepCell, offOf, manhattan]
    omega
  refine ⟨.UP, ?_⟩
  simp only [stepCell, offOf, manhattan]
  omega

theorem geo_succ_full (start orb c : Cell) (hgeo : Geo start orb c)
    (h1 : 1 ≤ manhattan c orb) :
    ∃ dr : Direction, Geo start orb (stepCell c dr) ∧
      manhattan (stepCell c dr) orb + 1 = manhattan c orb ∧
      manhattan start (stepCell c dr) = manhattan start c + 1 := by
  obtain ⟨dr, hdr⟩ := geo_succ c orb h1
  unfold Geo at hgeo ⊢
  have t1 := manhattan_triangle start c (stepCell c dr)
  have t2 := manhattan_triangle start (stepCell c dr) c
  have t3 := manhattan_triangle start (stepCell c dr) orb
  have t4 := manhattan_stepCell c dr
  have t5 : manhattan (stepCell c dr) c = manhattan c (stepCell c dr) := manhattan_comm _ _
  refine ⟨dr, ?_, hdr, ?_⟩ <;> omega

theorem geo_inBounds (W H : Nat) (a b c : Cell) (ha : inBoundsB W H a = true)
    (hb : inBoundsB W H b = true) (hgeo : manhattan a c + manhattan c b = manhattan a b) :
    inBoundsB W H c = true := by
  obtain ⟨ax, ay⟩ := a
  obtain ⟨bx, by'⟩ := b
  obtain ⟨cx, cy⟩ := c
  simp only [inBoundsB, decide_eq_true_eq, manhattan] at ha hb hgeo ⊢
  omega

theorem pushNbrs_eq (W H : Nat) (snake barriers : List Cell) (orb : Cell) (e : Ent)
    (visited : List Cell) :
    pushNbrs W H snake barriers orb e visited =
      (dirList.filter (fun dr => isValidA W H snake barriers (stepCell e.cell dr) &&
          !(visited.contains (stepCell e.cell dr)))).map
        (fun dr => ⟨e.g + 1 + manhattan (stepCell e.cell dr) orb, e.g + 1,
          stepCell e.cell dr, e.path ++ [dr]⟩) := by
  unfold pushNbrs
  dsimp only
  exact foldr_if_eq_filter_map _ _ _

theorem pushNbrs_length_le (W H : Nat) (snake barriers : List Cell) (orb : Cell) (e : Ent)
    (visited : List Cell) :
    (pushNbrs W H snake barriers orb e visited).length ≤ 4 := by
  rw [pushNbrs_eq, List.length_map]
  calc (dirList.filter _).length ≤ dirList.length := List.length_filter_le _ _
    _ = 4 := rfl

/-! ## Termination of the A* loop within its fuel (C6) -/

theorem unvisited_decrease (W H : Nat) (start : Cell) (visited : List Cell) (c : Cell)
    (hmem : c ∈ aStarUniv W H start) (hnvis : c ∉ visited) :
    ((aStarUniv W H start).filter (fun z => !((c :: visited).contains z))).length <
      ((aStarUniv W H start).filter (fun z => !(visited.contains z))).length := by
  refine filter_length_lt _ _ c ?_ ?_ ?_ _ hmem
  · intro x hx
    rw [Bool.not_eq_true'] at hx ⊢
    refine (contains_false_iff _ _).mpr ?_
    intro hm
    exact (contains_false_iff _ _).mp hx (List.mem_cons_of_mem _ hm)
  · rw [Bool.not_eq_true']
    exact (contains_false_iff _ _).mpr hnvis
  · have hc : (c :: visited).contains c = true :=
      (contains_true_iff _ _).mpr (List.mem_cons_self _ _)
    rw [hc]
    rfl

theorem mem_pushNbrs_univ (W H : Nat) (snake barriers : List Cell) (orb start : Cell)
    (e : Ent) (visited : List Cell) (e' : Ent)
    (h : e' ∈ pushNbrs W H snake barriers orb e visited) :
    e'.cell ∈ aStarUniv W H start := by
  rw [pushNbrs_eq] at h
  obtain ⟨dr, hdr, rfl⟩ := List.mem_map.mp h
  rw [List.mem_filter, Bool.and_eq_true] at hdr
  obtain ⟨-, hvalid, -⟩ := hdr
  unfold isValidA at hvalid
  rw [Bool.and_eq_true, Bool.and_eq_true] at hvalid
  exact List.mem_cons_of_mem _ (mem_allCells_of_inBounds W H _ hvalid.1.1)

theorem aStarLoopF_ne_none (W H : Nat) (snake barriers : List Cell) (orb start : Cell) :
    ∀ (fuel : Nat) (openSet : List Ent) (visited : List Cell),
      aStarFuel W H start openSet visited ≤ fuel →
      (∀ e ∈ openSet, e.cell ∈ aStarUniv W H start) →
      aStarLoopF W H snake barriers orb fuel openSet visited ≠ none := by
  intro fuel
  induction fuel with
  | zero =>
    intro openSet visited hfuel _
    have hop : openSet = [] := by
      unfold aStarFuel at hfuel
      cases openSet with
      | nil => rfl
      | cons a t =>
        rw [List.length_cons] at hfuel
        omega
    subst hop
    intro h
    exact Option.noConfusion h
  | succ fuel ih =>
    intro openSet visited hfuel hmem
    cases openSet with
    | nil =>
      intro h
      exact Option.noConfusion h
    | cons x xs =>
      have hstep : aStarLoopF W H snake barriers orb (fuel + 1) (x :: xs) visited =
          match sortF (x :: xs) with
          | [] => some none
          | e :: rest =>
            if e.cell = orb then some (some e.path)
            else if visited.contains e.cell then
              aStarLoopF W H snake barriers orb fuel rest visited
            else
              aStarLoopF W H snake barriers orb fuel
                (rest ++ pushNbrs W H snake barriers orb e (e.cell :: visited))
                (e.cell :: visited) := rfl
      rw [hstep]
      cases hs : sortF (x :: xs) with
      | nil =>
        intro h
        exact Option.noConfusion h
      | cons e rest =>
        have hred : (match e :: rest with
            | [] => some none
            | e :: rest =>
              if e.cell = orb then some (some e.path)
              else if visited.contains e.cell then
                aStarLoopF W H snake barriers orb fuel rest visited
              else
                aStarLoopF W H snake barriers orb fuel
                  (rest ++ pushNbrs W H snake barriers orb e (e.cell :: visited))
                  (e.cell :: visited) : Option (Option (List Direction))) =
            (if e.cell = orb then some (some e.path)
             else if visited.contains e.cell then
               aStarLoopF W H snake barriers orb fuel rest visited
             else
               aStarLoopF W H snake barriers orb fuel
                 (rest ++ pushNbrs W H snake barriers orb e (e.cell :: visited))
                 (e.cell :: visited)) := rfl
        rw [hred]
        have hperm : List.Perm (e :: rest) (x :: xs) := hs ▸ sortF_perm (x :: xs)
        have hlen : rest.length = xs.length := by
          have := hperm.length_eq
          rw [List.length_cons, List.length_cons] at this
          omega
        have hmem' : ∀ a ∈ e :: rest, a.cell ∈ aStarUniv W H start := by
          intro a ha
          exact hmem a (hperm.mem_iff.mp ha)
        by_cases horb : e.cell = orb
        · rw [if_pos horb]
          intro h
          exact Option.noConfusion h
        · rw [if_neg horb]
          by_cases hvis : visited.contains e.cell = true
          · rw [if_pos hvis]
            refine ih rest visited ?_ ?_
            · unfold aStarFuel at hfuel ⊢
              rw [List.length_cons] at hfuel
              omega
            · intro a ha
              exact hmem' a (List.mem_cons_of_mem _ ha)
          · rw [if_neg hvis]
            have hnv : e.cell ∉ visited := by
              intro hm
              exact hvis ((contains_true_iff _ _).mpr hm)
            refine ih _ _ ?_ ?_
            · unfold aStarFuel at hfuel ⊢
              rw [List.length_cons] at hfuel
              rw [List.length_append]
              have hp4 := pushNbrs_length_le W H snake barriers orb e (e.cell :: visited)
              have hdec := unvisited_decrease W H start visited e.cell
                (hmem' e (List.mem_cons_self _ _)) hnv
              omega
            · intro a ha
              rcases List.mem_append.mp ha with h | h
              · exact hmem' a (List.mem_cons_of_mem _ h)
              · exact mem_pushNbrs_univ W H snake barriers orb start e (e.cell :: visited) a h

/-- Claim C6: the A* search loop terminates within fuel proportional to the
cell count (the out-of-fuel result `none` is unreachable for the fuel
`aStarSearch` supplies), and `aStarPolicy` always returns one of the four
directions; when the frontier empties without reaching the orb the result is
the random fallback `rnd`. -/
theorem c6_astar_total (rnd : Direction) (snake : List Cell) (orb : Cell) (W H : Nat)
    (barriers : List Cell) :
    (aStarPolicy rnd snake orb W H barriers = .UP ∨
      aStarPolicy rnd snake orb W H barriers = .DOWN ∨
      aStarPolicy rnd snake orb W H barriers = .LEFT ∨
      aStarPolicy rnd snake orb W H barriers = .RIGHT) ∧
    aStarSearch snake orb W H barriers ≠ none ∧
    (aStarSearch snake orb W H barriers = some none →
      aStarPolicy rnd snake orb W H barriers = rnd) := by
  refine ⟨?_, ?_, ?_⟩
  · cases hh : aStarPolicy rnd snake orb W H barriers <;> simp
  · unfold aStarSearch
    dsimp only
    refine aStarLoopF_ne_none W H snake barriers orb (snake.headD (0, 0)) _ _ _ (le_refl _) ?_
    intro e he
    rw [List.mem_singleton] at he
    subst he
    exact List.mem_cons_self _ _
  · intro hsn
    unfold aStarPolicy
    rw [hsn]

/-! ## A* finds a geodesic when no shortest path is obstructed (C1) -/

theorem pushNbrs_sound (W H : Nat) (snake barriers : List Cell) (orb start : Cell)
    (e : Ent) (visited : List Cell) (he : SoundE start orb e) :
    ∀ e' ∈ pushNbrs W H snake barriers orb e visited, SoundE start orb e' := by
  intro e' h
  rw [pushNbrs_eq] at h
  obtain ⟨dr, -, rfl⟩ := List.mem_map.mp h
  refine ⟨?_, ?_, rfl⟩
  · dsimp only
    rw [applyPath_append_one, he.1]
  · dsimp only
    rw [List.length_append, he.2.1]
    rfl

theorem mem_pushNbrs_of_valid (W H : Nat) (snake barriers : List Cell) (orb : Cell)
    (e : Ent) (visited : List Cell) (dr : Direction)
    (hvalid : isValidA W H snake barriers (stepCell e.cell dr) = true)
    (hnvis : stepCell e.cell dr ∉ visited) :
    (⟨e.g + 1 + manhattan (stepCell e.cell dr) orb, e.g + 1, stepCell e.cell dr,
        e.path ++ [dr]⟩ : Ent) ∈ pushNbrs W H snake barriers orb e visited := by
  rw [pushNbrs_eq]
  refine List.mem_map_of_mem _ ?_
  rw [List.mem_filter]
  refine ⟨mem_dirList dr, ?_⟩
  rw [Bool.and_eq_true]
  refine ⟨hvalid, ?_⟩
  rw [Bool.not_eq_true']
  exact (contains_false_iff _ _).mpr hnvis

theorem astar_success (W H : Nat) (snake barriers : List Cell) (orb start : Cell)
    (hOF : ∀ c, Geo start orb c → c ≠ start → isValidA W H snake barriers c = true) :
    ∀ (fuel : Nat) (openSet : List Ent) (visited : List Cell),
      aStarFuel W H start openSet visited ≤ fuel →
      (∀ e ∈ openSet, e.cell ∈ aStarUniv W H start) →
      (∀ e ∈ openSet, SoundE start orb e) →
      AStarInv start orb openSet visited →
      ∃ p, aStarLoopF W H snake barriers orb fuel openSet visited = some (some p) ∧
        applyPath start p = orb ∧ p.length = manhattan start orb := by
  intro fuel
  induction fuel with
  | zero =>
    intro openSet visited hfuel hmem hsound hinv
    exfalso
    obtain ⟨e, he, -⟩ := hinv
    unfold aStarFuel at hfuel
    cases openSet with
    | nil => exact absurd he (List.not_mem_nil e)
    | cons a t =>
      rw [List.length_cons] at hfuel
      omega
  | succ fuel ih =>
    intro openSet visited hfuel hmem hsound hinv
    cases openSet with
    | nil =>
      exfalso
      obtain ⟨e, he, -⟩ := hinv
      exact absurd he (List.not_mem_nil e)
    | cons x xs =>
      have hstep : aStarLoopF W H snake barriers orb (fuel + 1) (x :: xs) visited =
          match sortF (x :: xs) with
          | [] => some none
          | e :: rest =>
            if e.cell = orb then some (some e.path)
            else if visited.contains e.cell then
              aStarLoopF W H snake barriers orb fuel rest visited
            else
              aStarLoopF W H snake barriers orb fuel
                (rest ++ pushNbrs W H snake barriers orb e (e.cell :: visited))
                (e.cell :: visited) := rfl
      rw [hstep]
      cases hs : sortF (x :: xs) with
      | nil =>
        exfalso
        have hl := (sortF_perm (x :: xs)).length_eq
        rw [hs] at hl
        rw [List.length_nil, List.length_cons] at hl
        omega
      | cons e rest =>
        have hred : (match e :: rest with
            | [] => some none
            | e :: rest =>
              if e.cell = orb then some (some e.path)
              else if visited.contains e.cell then
                aStarLoopF W H snake barriers orb fuel rest visited
              else
                aStarLoopF W H snake barriers orb fuel
                  (rest ++ pushNbrs W H snake barriers orb e (e.cell :: visited))
                  (e.cell :: visited) : Option (Option (List Direction))) =
            (if e.cell = orb then some (some e.path)
             else if visited.contains e.cell then
               aStarLoopF W H snake barriers orb fuel rest visited
             else
               aStarLoopF W H snake barriers orb fuel
                 (rest ++ pushNbrs W H snake barriers orb e (e.cell :: visited))
                 (e.cell :: visited)) := rfl
        rw [hred]
        have hperm : List.Perm (e :: rest) (x :: xs) := hs ▸ sortF_perm (x :: xs)
        have hlen : rest.length = xs.length := by
          have hl := hperm.length_eq
          rw [List.length_cons, List.length_cons] at hl
          omega
        have hmem' : ∀ a ∈ e :: rest, a.cell ∈ aStarUniv W H start := by
          intro a ha
          exact hmem a (hperm.mem_iff.mp ha)
        have hsound' : ∀ a ∈ e :: rest, SoundE start orb a := by
          intro a ha
          exact hsound a (hperm.mem_iff.mp ha)
        obtain ⟨es, hes_mem, hes_sound, hes_f, hes_nvis, hes_less⟩ := hinv
        have hes_mem' : es ∈ e :: rest := hperm.mem_iff.mpr hes_mem
        have hsorted := sortF_pairwise (x :: xs)
        rw [hs, List.pairwise_cons] at hsorted
        have hmin : ∀ a ∈ e :: rest, e.f ≤ a.f := by
          intro a ha
          rcases List.mem_cons.mp ha with rfl | h2
          · exact le_refl _
          · exact hsorted.1 a h2
        have he_sound : SoundE start orb e := hsound' e (List.mem_cons_self _ _)
        have hefd : e.f = manhattan start orb := by
          have h1 := sound_f_ge start orb e he_sound
          have h2 := hmin es hes_mem'
          omega
        by_cases horb : e.cell = orb
        · rw [if_pos horb]
          refine ⟨e.path, rfl, ?_, ?_⟩
          · rw [he_sound.1]
            exact horb
          · have h0 : manhattan e.cell orb = 0 := by
              rw [horb]
              exact (manhattan_eq_zero _ _).mpr rfl
            have h1 := he_sound.2.1
            have h2 := he_sound.2.2
            omega
        · rw [if_neg horb]
          by_cases hvis : visited.contains e.cell = true
          · rw [if_pos hvis]
            have hne : es ≠ e := by
              intro h
              subst h
              exact hes_nvis ((contains_true_iff _ _).mp hvis)
            have hes_rest : es ∈ rest := by
              rcases List.mem_cons.mp hes_mem' with h | h
              · exact absurd h hne
              · exact h
            refine ih rest visited ?_ ?_ ?_
              ⟨es, hes_rest, hes_sound, hes_f, hes_nvis, hes_less⟩
            · unfold aStarFuel at hfuel ⊢
              rw [List.length_cons] at hfuel
              omega
            · intro a ha
              exact hmem' a (List.mem_cons_of_mem _ ha)
            · intro a ha
              exact hsound' a (List.mem_cons_of_mem _ ha)
          · rw [if_neg hvis]
            have hnv : e.cell ∉ visited := by
              intro hm
              exact hvis ((contains_true_iff _ _).mpr hm)
            have hgeoes : Geo start orb es.cell := (sound_fd start orb es hes_sound hes_f).1
            have hes_f_eq := hes_sound.2.2
            have he_f_eq := he_sound.2.2
            have hinv' : AStarInv start orb
                (rest ++ pushNbrs W H snake barriers orb e (e.cell :: visited))
                (e.cell :: visited) := by
              by_cases hgeoE : Geo start orb e.cell
              · have hh1 : 1 ≤ manhattan e.cell orb := by
                  rcases Nat.eq_zero_or_pos (manhattan e.cell orb) with h | h
                  · exact absurd ((manhattan_eq_zero _ _).mp h) horb
                  · exact h
                obtain ⟨dr, hgeoC, hsucc, hstartC⟩ := geo_succ_full start orb e.cell hgeoE hh1
                by_cases hc'vis : stepCell e.cell dr ∈ visited
                · have hlt := hes_less (stepCell e.cell dr) hc'vis hgeoC
                  have hescell : es.cell ≠ e.cell := by
                    intro h
                    rw [h] at hlt
                    omega
                  have hes_ne : es ≠ e := fun h => hescell (congrArg Ent.cell h)
                  have hes_rest : es ∈ rest := by
                    rcases List.mem_cons.mp hes_mem' with h | h
                    · exact absurd h hes_ne
                    · exact h
                  refine ⟨es, List.mem_append_left _ hes_rest, hes_sound, hes_f, ?_, ?_⟩
                  · rw [List.mem_cons]
                    rintro (h | h)
                    · exact hescell h
                    · exact hes_nvis h
                  · intro v hv hgv
                    rcases List.mem_cons.mp hv with rfl | hv2
                    · omega
                    · exact hes_less v hv2 hgv
                · have hc'ne : stepCell e.cell dr ≠ e.cell := by
                    intro h
                    rw [h] at hsucc
                    omega
                  have hc'nvis : stepCell e.cell dr ∉ e.cell :: visited := by
                    rw [List.mem_cons]
                    rintro (h | h)
                    · exact hc'ne h
                    · exact hc'vis h
                  have hc'start : stepCell e.cell dr ≠ start := by
                    intro h
                    rw [h] at hstartC
                    have h0 : manhattan start start = 0 := (manhattan_eq_zero _ _).mpr rfl
                    omega
                  have hentry := mem_pushNbrs_of_valid W H snake barriers orb e
                    (e.cell :: visited) dr (hOF _ hgeoC hc'start) hc'nvis
                  have hentry_sound : SoundE start orb
                      ⟨e.g + 1 + manhattan (stepCell e.cell dr) orb, e.g + 1,
                        stepCell e.cell dr, e.path ++ [dr]⟩ := by
                    refine ⟨?_, ?_, rfl⟩
                    · dsimp only
                      rw [applyPath_append_one, he_sound.1]
                    · dsimp only
                      rw [List.length_append, he_sound.2.1]
                      rfl
                  have hentry_f : (⟨e.g + 1 + manhattan (stepCell e.cell dr) orb, e.g + 1,
                      stepCell e.cell dr, e.path ++ [dr]⟩ : Ent).f = manhattan start orb := by
                    dsimp only
                    omega
                  by_cases hchoice : manhattan (stepCell e.cell dr) orb < manhattan es.cell orb
                  · refine ⟨_, List.mem_append_right _ hentry, hentry_sound, hentry_f,
                      hc'nvis, ?_⟩
                    intro v hv hgv
                    rcases List.mem_cons.mp hv with rfl | hv2
                    · dsimp only
                      omega
                    · have := hes_less v hv2 hgv
                      dsimp only
                      omega
                  · have hescell : es.cell ≠ e.cell := by
                      intro h
                      rw [h] at hes_less hchoice
                      omega
                    have hes_ne : es ≠ e := fun h => hescell (congrArg Ent.cell h)
                    have hes_rest : es ∈ rest := by
                      rcases List.mem_cons.mp hes_mem' with h | h
                      · exact absurd h hes_ne
                      · exact h
                    refine ⟨es, List.mem_append_left _ hes_rest, hes_sound, hes_f, ?_, ?_⟩
                    · rw [List.mem_cons]
                      rintro (h | h)
                      · exact hescell h
                      · exact hes_nvis h
                    · intro v hv hgv
                      rcases List.mem_cons.mp hv with rfl | hv2
                      · omega
                      · exact hes_less v hv2 hgv
              · have hescell : es.cell ≠ e.cell := by
                  intro h
                  exact hgeoE (h ▸ hgeoes)
                have hes_ne : es ≠ e := fun h => hescell (congrArg Ent.cell h)
                have hes_rest : es ∈ rest := by
                  rcases List.mem_cons.mp hes_mem' with h | h
                  · exact absurd h hes_ne
                  · exact h
                refine ⟨es, List.mem_append_left _ hes_rest, hes_sound, hes_f, ?_, ?_⟩
                · rw [List.mem_cons]
                  rintro (h | h)
                  · exact hescell h
                  · exact hes_nvis h
                · intro v hv hgv
                  rcases List.mem_cons.mp hv with rfl | hv2
                  · exact absurd hgv hgeoE
                  · exact hes_less v hv2 hgv
            refine ih _ _ ?_ ?_ ?_ hinv'
            · unfold aStarFuel at hfuel ⊢
              rw [List.length_cons] at hfuel
              rw [List.length_append]
              have hp4 := pushNbrs_length_le W H snake barriers orb e (e.cell :: visited)
              have hdec := unvisited_decrease W H start visited e.cell
                (hmem' e (List.mem_cons_self _ _)) hnv
              omega
            · intro a ha
              rcases List.mem_append.mp ha with h | h
              · exact hmem' a (List.mem_cons_of_mem _ h)
              · exact mem_pushNbrs_univ W H snake barriers orb start e (e.cell :: visited) a h
            · intro a ha
              rcases List.mem_append.mp ha with h | h
              · exact hsound' a (List.mem_cons_of_mem _ h)
              · exact pushNbrs_sound W H snake barriers orb start e (e.cell :: visited)
                  he_sound a h

theorem headD_mem (l : List Cell) (h : l ≠ []) : l.headD (0, 0) ∈ l := by
  cases l with
  | nil => exact absurd rfl h
  | cons a t => exact List.mem_cons_self _ _

theorem aStarPolicy_geodesic (rnd : Direction) (snake : List Cell) (orb : Cell) (W H : Nat)
    (barriers : List Cell)
    (hOF : ∀ c, Geo (snake.headD (0, 0)) orb c → c ≠ snake.headD (0, 0) →
      isValidA W H snake barriers c = true)
    (hd1 : 1 ≤ manhattan (snake.headD (0, 0)) orb) :
    manhattan (stepCell (snake.headD (0, 0)) (aStarPolicy rnd snake orb W H barriers)) orb + 1 =
      manhattan (snake.headD (0, 0)) orb := by
  have hmem0 : ∀ e ∈ [(⟨manhattan (snake.headD (0, 0)) orb, 0, snake.headD (0, 0), []⟩ : Ent)],
      e.cell ∈ aStarUniv W H (snake.headD (0, 0)) := by
    intro e he
    rw [List.mem_singleton] at he
    subst he
    exact List.mem_cons_self _ _
  have hsound0 : ∀ e ∈ [(⟨manhattan (snake.headD (0, 0)) orb, 0, snake.headD (0, 0), []⟩ : Ent)],
      SoundE (snake.headD (0, 0)) orb e := by
    intro e he
    rw [List.mem_singleton] at he
    subst he
    refine ⟨rfl, rfl, ?_⟩
    dsimp only
    omega
  have hinv0 : AStarInv (snake.headD (0, 0)) orb
      [⟨manhattan (snake.headD (0, 0)) orb, 0, snake.headD (0, 0), []⟩] [] := by
    refine ⟨_, List.mem_singleton.mpr rfl, ?_, rfl, List.not_mem_nil _, ?_⟩
    · refine ⟨rfl, rfl, ?_⟩
      dsimp only
      omega
    · intro v hv
      exact absurd hv (List.not_mem_nil v)
  obtain ⟨p, hp_eq, hp_apply, hp_len⟩ := astar_success W H snake barriers orb
    (snake.headD (0, 0)) hOF _ _ _ (le_refl _) hmem0 hsound0 hinv0
  have hsearch : aStarSearch snake orb W H barriers = some (some p) := hp_eq
  have hpol : aStarPolicy rnd snake orb W H barriers = p.headD .UP := by
    unfold aStarPolicy
    rw [hsearch]
  cases p with
  | nil =>
    exfalso
    rw [List.length_nil] at hp_len
    omega
  | cons d0 p' =>
    rw [hpol]
    have hhead : (d0 :: p').headD .UP = d0 := rfl
    rw [hhead]
    have happ : applyPath (stepCell (snake.headD (0, 0)) d0) p' = orb := hp_apply
    have hlen' : p'.length + 1 = manhattan (snake.headD (0, 0)) orb := by
      rw [List.length_cons] at hp_len
      omega
    have hle := manhattan_applyPath_le p' (stepCell (snake.headD (0, 0)) d0)
    rw [happ] at hle
    have htri := manhattan_triangle (snake.headD (0, 0))
      (stepCell (snake.headD (0, 0)) d0) orb
    have hstep1 := manhattan_stepCell (snake.headD (0, 0)) d0
    omega

theorem astar_tick (rnd : Direction) (W H : Nat) (orb : Cell) (barriers snake : List Cell)
    (hne : snake ≠ []) (horbs : orb ∉ snake)
    (hb : inBoundsB W H (snake.headD (0, 0)) = true)
    (ho : inBoundsB W H orb = true)
    (hOF : ∀ c, Geo (snake.headD (0, 0)) orb c → c ≠ snake.headD (0, 0) →
      c ∉ snake ∧ c ∉ barriers) :
    nextSnakeA rnd W H orb barriers snake ≠ [] ∧
    manhattan ((nextSnakeA rnd W H orb barriers snake).headD (0, 0)) orb + 1 =
      manhattan (snake.headD (0, 0)) orb ∧
    (2 ≤ manhattan (snake.headD (0, 0)) orb →
      orb ∉ nextSnakeA rnd W H orb barriers snake ∧
      inBoundsB W H ((nextSnakeA rnd W H orb barriers snake).headD (0, 0)) = true ∧
      ∀ c, Geo ((nextSnakeA rnd W H orb barriers snake).headD (0, 0)) orb c →
        c ≠ (nextSnakeA rnd W H orb barriers snake).headD (0, 0) →
        c ∉ nextSnakeA rnd W H orb barriers snake ∧ c ∉ barriers) := by
  have hd1 : 1 ≤ manhattan (snake.headD (0, 0)) orb := by
    rcases Nat.eq_zero_or_pos (manhattan (snake.headD (0, 0)) orb) with h | h
    · exfalso
      have heq : snake.headD (0, 0) = orb := (manhattan_eq_zero _ _).mp h
      exact horbs (heq ▸ headD_mem snake hne)
    · exact h
  have hOFvalid : ∀ c, Geo (snake.headD (0, 0)) orb c → c ≠ snake.headD (0, 0) →
      isValidA W H snake barriers c = true := by
    intro c hg hne2
    obtain ⟨h1, h2⟩ := hOF c hg hne2
    have hin := geo_inBounds W H (snake.headD (0, 0)) orb c hb ho hg
    unfold isValidA
    rw [hin, (contains_false_iff _ _).mpr h1, (contains_false_iff _ _).mpr h2]
    rfl
  have hfs := aStarPolicy_geodesic rnd snake orb W H barriers hOFvalid hd1
  have hstep1 := manhattan_stepCell (snake.headD (0, 0))
    (aStarPolicy rnd snake orb W H barriers)
  have hgeonh : Geo (snake.headD (0, 0)) orb
      (stepCell (snake.headD (0, 0)) (aStarPolicy rnd snake orb W H barriers)) := by
    unfold Geo
    omega
  have hnhne : stepCell (snake.headD (0, 0)) (aStarPolicy rnd snake orb W H barriers) ≠
      snake.headD (0, 0) := by
    intro h
    rw [h] at hstep1
    have h0 : manhattan (snake.headD (0, 0)) (snake.headD (0, 0)) = 0 :=
      (manhattan_eq_zero _ _).mpr rfl
    omega
  obtain ⟨hnh_snake, hnh_barriers⟩ := hOF _ hgeonh hnhne
  have hcol : (snake.contains (stepCell (snake.headD (0, 0))
        (aStarPolicy rnd snake orb W H barriers)) ||
      barriers.contains (stepCell (snake.headD (0, 0))
        (aStarPolicy rnd snake orb W H barriers))) = false := by
    rw [Bool.or_eq_false_iff, contains_false_iff, contains_false_iff]
    exact ⟨hnh_snake, hnh_barriers⟩
  have hnext : nextSnakeA rnd W H orb barriers snake =
      if stepCell (snake.headD (0, 0)) (aStarPolicy rnd snake orb W H barriers) = orb then
        (stepCell (snake.headD (0, 0)) (aStarPolicy rnd snake orb W H barriers) ::
            snake.dropLast) ++
          [(stepCell (snake.headD (0, 0)) (aStarPolicy rnd snake orb W H barriers) ::
              snake.dropLast).getLastD (0, 0)]
      else stepCell (snake.headD (0, 0)) (aStarPolicy rnd snake orb W H barriers) ::
        snake.dropLast := by
    unfold nextSnakeA
    dsimp only
    rw [hcol]
    simp only [Bool.false_eq_true, if_false]
  have hheadnext : (nextSnakeA rnd W H orb barriers snake).headD (0, 0) =
      stepCell (snake.headD (0, 0)) (aStarPolicy rnd snake orb W H barriers) := by
    rw [hnext]
    by_cases h : stepCell (snake.headD (0, 0)) (aStarPolicy rnd snake orb W H barriers) = orb
    · rw [if_pos h, List.cons_append]
      rfl
    · rw [if_neg h]
      rfl
  refine ⟨?_, ?_, ?_⟩
  · rw [hnext]
    by_cases h : stepCell (snake.headD (0, 0)) (aStarPolicy rnd snake orb W H barriers) = orb
    · rw [if_pos h, List.cons_append]
      exact List.cons_ne_nil _ _
    · rw [if_neg h]
      exact List.cons_ne_nil _ _
  · rw [hheadnext]
    exact hfs
  · intro hd2
    have hnh_ne_orb : stepCell (snake.headD (0, 0))
        (aStarPolicy rnd snake orb W H barriers) ≠ orb := by
      intro h
      rw [h] at hfs
      have h0 : manhattan orb orb = 0 := (manhattan_eq_zero _ _).mpr rfl
      omega
    have hnext2 : nextSnakeA rnd W H orb barriers snake =
        stepCell (snake.headD (0, 0)) (aStarPolicy rnd snake orb W H barriers) ::
          snake.dropLast := by
      rw [hnext, if_neg hnh_ne_orb]
    refine ⟨?_, ?_, ?_⟩
    · rw [hnext2, List.mem_cons]
      rintro (h | h)
      · exact hnh_ne_orb h.symm
      · exact horbs ((List.dropLast_sublist snake).subset h)
    · rw [hheadnext]
      exact geo_inBounds W H (snake.headD (0, 0)) orb _ hb ho hgeonh
    · intro c hg hcne
      rw [hheadnext] at hg hcne
      have hgeoc : Geo (snake.headD (0, 0)) orb c := by
        unfold Geo at hg hgeonh ⊢
        have t1 := manhattan_triangle (snake.headD (0, 0))
          (stepCell (snake.headD (0, 0)) (aStarPolicy rnd snake orb W H barriers)) c
        have t2 := manhattan_triangle (snake.headD (0, 0)) c orb
        omega
      have hcnestart : c ≠ snake.headD (0, 0) := by
        intro h
        rw [h] at hg
        unfold Geo at hg
        have t3 := manhattan_comm (stepCell (snake.headD (0, 0))
          (aStarPolicy rnd snake orb W H barriers)) (snake.headD (0, 0))
        have t4 := manhattan_stepCell (snake.headD (0, 0))
          (aStarPolicy rnd snake orb W H barriers)
        omega
      obtain ⟨h1, h2⟩ := hOF c hgeoc hcnestart
      refine ⟨?_, h2⟩
      rw [hnext2, List.mem_cons]
      rintro (h | h)
      · exact hcne h
      · exact h1 ((List.dropLast_sublist snake).subset h)

theorem astar_run (rnd : Direction) (W H : Nat) (orb : Cell) (barriers : List Cell) :
    ∀ (d : Nat) (snake : List Cell), snake ≠ [] → orb ∉ snake →
      inBoundsB W H (snake.headD (0, 0)) = true → inBoundsB W H orb = true →
      (∀ c, Geo (snake.headD (0, 0)) orb c → c ≠ snake.headD (0, 0) →
        c ∉ snake ∧ c ∉ barriers) →
      manhattan (snake.headD (0, 0)) orb = d →
      ∀ k, k ≤ d →
        manhattan (((nextSnakeA rnd W H orb barriers)^[k] snake).headD (0, 0)) orb + k = d := by
  intro d
  induction d with
  | zero =>
    intro snake hne horbs _ _ _ hd
    exfalso
    have heq : snake.headD (0, 0) = orb := (manhattan_eq_zero _ _).mp hd
    exact horbs (heq ▸ headD_mem snake hne)
  | succ d ihd =>
    intro snake hne horbs hb ho hOF hd k hk
    cases k with
    | zero =>
      simpa using hd
    | succ k =>
      rw [Function.iterate_succ_apply]
      obtain ⟨hne', hstep1, hpres⟩ := astar_tick rnd W H orb barriers snake hne horbs hb ho hOF
      by_cases hd2 : 2 ≤ d + 1
      · obtain ⟨horbs', hb', hOF'⟩ := hpres (by omega)
        have hd' : manhattan ((nextSnakeA rnd W H orb barriers snake).headD (0, 0)) orb = d := by
          omega
        have hrec := ihd (nextSnakeA rnd W H orb barriers snake) hne' horbs' hb' ho hOF' hd'
          k (by omega)
        omega
      · have hd0 : d = 0 := by omega
        have hk0 : k = 0 := by omega
        subst hd0
        subst hk0
        rw [Function.iterate_zero_apply]
        omega

/-- Claim C1: on a configuration where no cell of any shortest (Manhattan
geodesic) path from the head to the orb is obstructed by the snake body or a
barrier (head and orb in bounds, orb outside the snake), the direction
returned by `aStarPolicy` reduces the Manhattan distance to the orb by
exactly 1, and iterating one `gameLoop` snake update with a freshly
recomputed `aStarPolicy` reaches the orb in exactly `d` ticks, where `d` is
the initial Manhattan distance: after `k ≤ d` ticks the distance is `d - k`,
after `d` ticks the head is the orb, and at no earlier tick is it the orb. -/
theorem c1_astar_straight_line (rnd : Direction) (snake : List Cell) (orb : Cell)
    (W H : Nat) (barriers : List Cell)
    (hne : snake ≠ []) (horbs : orb ∉ snake)
    (hb : inBoundsB W H (snake.headD (0, 0)) = true)
    (ho : inBoundsB W H orb = true)
    (hOF : ∀ c, Geo (snake.headD (0, 0)) orb c → c ≠ snake.headD (0, 0) →
      c ∉ snake ∧ c ∉ barriers) :
    (manhattan (stepCell (snake.headD (0, 0)) (aStarPolicy rnd snake orb W H barriers)) orb + 1 =
      manhattan (snake.headD (0, 0)) orb) ∧
    (∀ k, k ≤ manhattan (snake.headD (0, 0)) orb →
      manhattan (((nextSnakeA rnd W H orb barriers)^[k] snake).headD (0, 0)) orb + k =
        manhattan (snake.headD (0, 0)) orb) ∧
    ((nextSnakeA rnd W H orb barriers)^[manhattan (snake.headD (0, 0)) orb] snake).headD
        (0, 0) = orb ∧
    (∀ k, k < manhattan (snake.headD (0, 0)) orb →
      ((nextSnakeA rnd W H orb barriers)^[k] snake).headD (0, 0) ≠ orb) := by
  have hd1 : 1 ≤ manhattan (snake.headD (0, 0)) orb := by
    rcases Nat.eq_zero_or_pos (manhattan (snake.headD (0, 0)) orb) with h | h
    · exfalso
      have heq : snake.headD (0, 0) = orb := (manhattan_eq_zero _ _).mp h
      exact horbs (heq ▸ headD_mem snake hne)
    · exact h
  have hOFvalid : ∀ c, Geo (snake.headD (0, 0)) orb c → c ≠ snake.headD (0, 0) →
      isValidA W H snake barriers c = true := by
    intro c hg hne2
    obtain ⟨h1, h2⟩ := hOF c hg hne2
    have hin := geo_inBounds W H (snake.headD (0, 0)) orb c hb ho hg
    unfold isValidA
    rw [hin, (contains_false_iff _ _).mpr h1, (contains_false_iff _ _).mpr h2]
    rfl
  have hrun := astar_run rnd W H orb barriers (manhattan (snake.headD (0, 0)) orb) snake
    hne horbs hb ho hOF rfl
  refine ⟨aStarPolicy_geodesic rnd snake orb W H barriers hOFvalid hd1, hrun, ?_, ?_⟩
  · have h := hrun (manhattan (snake.headD (0, 0)) orb) (le_refl _)
    have h0 : manhattan (((nextSnakeA rnd W H orb barriers)^[manhattan
        (snake.headD (0, 0)) orb] snake).headD (0, 0)) orb = 0 := by
      omega
    exact (manhattan_eq_zero _ _).mp h0
  · intro k hk
    have h := hrun k (by omega)
    intro heq
    rw [heq] at h
    have h0 : manhattan orb orb = 0 := (manhattan_eq_zero _ _).mpr rfl
    omega

/-- Witness for C1 at a concrete obstruction-free configuration. -/
theorem c1_astar_straight_line_witness :
    (manhattan (stepCell (([((2 : Int), (2 : Int))] : List Cell).headD (0, 0))
        (aStarPolicy .DOWN [(2, 2)] (4, 2) 5 5 [])) (4, 2) + 1 =
      manhattan (([((2 : Int), (2 : Int))] : List Cell).headD (0, 0)) (4, 2)) ∧
    ((nextSnakeA .DOWN 5 5 (4, 2) [])^[manhattan
        (([((2 : Int), (2 : Int))] : List Cell).headD (0, 0)) (4, 2)]
      [(2, 2)]).headD (0, 0) = (4, 2) := by
  have h := c1_astar_straight_line .DOWN [(2, 2)] (4, 2) 5 5 []
    (by decide) (by decide) (by decide) (by decide)
    (by
      intro c hg hne2
      refine ⟨?_, ?_⟩
      · rw [List.mem_singleton]
        exact hne2
      · exact List.not_mem_nil c)
  exact ⟨h.1, h.2.2.1⟩
